import Mathlib

/-!
Verification of the ddbms_2PL repository: a shallow embedding of the
lock manager (lock table + wait-for graph + deadlock detection), the
transaction object and the transaction manager, with theorems checking
the natural-language specification against the code.

Python dictionaries are modelled as insertion-ordered association lists
(`alookup` / `aupdate` / `aerase`), Python sets of ints as duplicate-free
lists with insert-if-absent (`sadd`); membership is the only observation
the source performs on sets, so list order is immaterial to the results.
-/

namespace DDBMS

/-- Association-list lookup: first binding wins (Python dict lookup). -/
def alookup {α β : Type} [DecidableEq α] : List (α × β) → α → Option β
  | [], _ => none
  | (a, b) :: t, k => if a = k then some b else alookup t k

/-- Association-list store: replace the first binding in place, else append
(Python dict assignment preserves key insertion order). -/
def aupdate {α β : Type} [DecidableEq α] : List (α × β) → α → β → List (α × β)
  | [], k, v => [(k, v)]
  | (a, b) :: t, k, v => if a = k then (k, v) :: t else (a, b) :: aupdate t k v

/-- Association-list delete (Python `del d[k]`). -/
def aerase {α β : Type} [DecidableEq α] : List (α × β) → α → List (α × β)
  | [], _ => []
  | (a, b) :: t, k => if a = k then t else (a, b) :: aerase t k

/-- Python `set.add`: insert if absent. -/
def sadd (l : List Nat) (x : Nat) : List Nat := if x ∈ l then l else l ++ [x]

/-! ### Wait-for graph (`lock_manager.py`, class `WaitForGraph`)

`adj[waiter] = {holders}` becomes an association list from waiter id to
its list of holder ids. -/

abbrev WFG := List (Nat × List Nat)

/-- `WaitForGraph.add_dependency`: record that `waiter` waits for `holder`;
also ensure `holder` is a key. -/
def addDependency (g : WFG) (waiter holder : Nat) : WFG :=
  let g1 := match alookup g waiter with
    | some s => aupdate g waiter (sadd s holder)
    | none => g ++ [(waiter, [holder])]
  match alookup g1 holder with
    | some _ => g1
    | none => g1 ++ [(holder, [])]

/-- `WaitForGraph.remove_transaction`: delete the node and remove it from
every dependency set. -/
def removeTransaction (g : WFG) (txn : Nat) : WFG :=
  (aerase g txn).map (fun p => (p.1, p.2.filter (fun x => x ≠ txn)))

/-- `WaitForGraph.remove_waiting`: clear `txn`'s out-edges (if present). -/
def removeWaiting (g : WFG) (txn : Nat) : WFG :=
  match alookup g txn with
  | some _ => aupdate g txn []
  | none => g

/-- Out-neighbours of a node: `adj[node]` when present, else nothing
(the source guards with `if node in self.adj`). -/
def nbrs (g : WFG) (n : Nat) : List Nat := (alookup g n).getD []

/-- `list(self.adj.keys())` in insertion order. -/
def wkeys (g : WFG) : List Nat := g.map Prod.fst

/-- Every node id the graph can ever mention: keys plus all members of
adjacency sets.  Used to bound the DFS. -/
def wuniv (g : WFG) : List Nat := wkeys g ++ (g.map Prod.snd).flatten

/-- The edge relation of the graph: `a` waits for `b`. -/
def edgeRel (g : WFG) (a b : Nat) : Prop := b ∈ nbrs g a

instance (g : WFG) (a b : Nat) : Decidable (edgeRel g a b) := by
  unfold edgeRel; infer_instance

/-- Reachability along wait-for edges. -/
def reach (g : WFG) : Nat → Nat → Prop := Relation.ReflTransGen (edgeRel g)

/-- The graph has a cycle: some node reaches itself in at least one step. -/
def hasCycle (g : WFG) : Prop := ∃ c, Relation.TransGen (edgeRel g) c c

/-! ### `WaitForGraph.detect_deadlock`: DFS with `visited` and `stack`

The nested Python function `visit` mutates two sets; the embedding
threads `visited` explicitly (it persists across calls) and passes
`stack` downward (its mutations are balanced: `visit` adds its node on
entry and removes it before returning `False`, and on `True` the whole
traversal stops, so from any caller's viewpoint the stack is unchanged).
Recursion is fuelled; `detect_deadlock` supplies fuel exceeding the
number of graph nodes, which `visit_fuel_sufficient` below proves enough. -/

/-- The neighbour loop of `visit`: unvisited neighbours are recursed into
(through `vf`, the recursive call at one fuel less), a visited neighbour on
the stack is a back edge (cycle found). -/
def visitListAux (g : WFG)
    (vf : Nat → List Nat → List Nat → Option (Bool × List Nat)) :
    List Nat → List Nat → List Nat → Option (Bool × List Nat)
  | [], visited, _ => some (false, visited)
  | b :: bs, visited, stack =>
      if b ∈ visited then
        if b ∈ stack then some (true, visited)
        else visitListAux g vf bs visited stack
      else
        match vf b visited stack with
        | none => none
        | some (true, v2) => some (true, v2)
        | some (false, v2) => visitListAux g vf bs v2 stack

/-- One call `visit(node)` of the Python DFS: mark `node` visited and
in-stack, then scan its neighbours. -/
def visit (g : WFG) : Nat → Nat → List Nat → List Nat → Option (Bool × List Nat)
  | 0, _, _, _ => none
  | fuel + 1, node, visited, stack =>
      visitListAux g (visit g fuel) (nbrs g node) (node :: visited) (node :: stack)

/-- Fuel supplied by `detect_deadlock`: strictly more than the number of
node occurrences in the graph. -/
def detectFuel (g : WFG) : Nat := (wuniv g).length + 1

/-- The outer loop `for node in nodes: if node not in visited: ...`,
returning `some (some node)` when that root's DFS finds a cycle,
`some none` when the scan completes, `none` on fuel exhaustion
(proved impossible below). -/
def detectLoop (g : WFG) : List Nat → List Nat → Option (Option Nat)
  | [], _ => some none
  | k :: ks, visited =>
      if k ∈ visited then detectLoop g ks visited
      else match visit g (detectFuel g) k visited [] with
        | none => none
        | some (true, _) => some (some k)
        | some (false, v2) => detectLoop g ks v2

/-- `WaitForGraph.detect_deadlock`. -/
def detect_deadlock (g : WFG) : Option (Option Nat) := detectLoop g (wkeys g) []

example : detect_deadlock [(1, [2]), (2, [3]), (3, [2])] = some (some 1) := by decide
example : detect_deadlock [(1, [2]), (2, [3]), (3, [])] = some none := by decide
example : detect_deadlock [(2, [1]), (1, [2])] = some (some 2) := by decide
example : detect_deadlock [] = some none := by decide

/-! ### Association-list and filter lemmas -/

theorem alookup_mem {α β : Type} [DecidableEq α] :
    ∀ (l : List (α × β)) (k : α) (v : β), alookup l k = some v → (k, v) ∈ l := by
  intro l
  induction l with
  | nil => intro k v h; simp [alookup] at h
  | cons p t ih =>
    obtain ⟨a, b⟩ := p
    intro k v h
    rw [alookup] at h
    by_cases hak : a = k
    · rw [if_pos hak] at h
      cases h
      subst hak
      exact List.mem_cons_self _ _
    · rw [if_neg hak] at h
      exact List.mem_cons_of_mem _ (ih k v h)

theorem nbrs_mem_wuniv {g : WFG} {a b : Nat} (h : b ∈ nbrs g a) : b ∈ wuniv g := by
  unfold nbrs at h
  cases hl : alookup g a with
  | none => rw [hl] at h; simp at h
  | some l =>
    rw [hl] at h
    simp only [Option.getD_some] at h
    have hm : (a, l) ∈ g := alookup_mem _ _ _ hl
    unfold wuniv
    refine List.mem_append_right _ ?_
    rw [List.mem_flatten]
    exact ⟨l, List.mem_map_of_mem Prod.snd hm, h⟩

theorem edge_src_mem_wkeys {g : WFG} {a b : Nat} (h : edgeRel g a b) : a ∈ wkeys g := by
  unfold edgeRel nbrs at h
  cases hl : alookup g a with
  | none => rw [hl] at h; simp at h
  | some l => exact List.mem_map_of_mem Prod.fst (alookup_mem _ _ _ hl)

theorem filter_length_mono {l : List Nat} {p q : Nat → Bool}
    (h : ∀ a ∈ l, q a = true → p a = true) :
    (l.filter q).length ≤ (l.filter p).length := by
  induction l with
  | nil => simp
  | cons a t ih =>
    have ht : ∀ x ∈ t, q x = true → p x = true :=
      fun x hx => h x (List.mem_cons_of_mem _ hx)
    have hih := ih ht
    rw [List.filter_cons, List.filter_cons]
    by_cases hq : q a = true
    · rw [if_pos hq, if_pos (h a (List.mem_cons_self a t) hq)]
      simpa using hih
    · rw [if_neg hq]
      by_cases hp : p a = true
      · rw [if_pos hp]
        exact hih.trans (Nat.le_succ _)
      · rw [if_neg hp]
        exact hih

theorem filter_cons_lt {l V : List Nat} {a : Nat} (hal : a ∈ l) (hav : a ∉ V) :
    (l.filter (fun x => decide (x ∉ a :: V))).length <
      (l.filter (fun x => decide (x ∉ V))).length := by
  induction l with
  | nil => simp at hal
  | cons b t ih =>
    have hmono : (t.filter (fun x => decide (x ∉ a :: V))).length ≤
        (t.filter (fun x => decide (x ∉ V))).length := by
      apply filter_length_mono
      intro x _ hx
      simp only [decide_eq_true_eq, List.mem_cons, not_or] at hx ⊢
      exact hx.2
    rw [List.filter_cons, List.filter_cons]
    by_cases hba : b = a
    · subst hba
      rw [if_neg (by simp), if_pos (by simpa using hav)]
      exact Nat.lt_succ_of_le hmono
    · have hat : a ∈ t := by
        rcases List.mem_cons.mp hal with h | h
        · exact absurd h.symm hba
        · exact h
      by_cases hbv : b ∈ V
      · rw [if_neg (by simp [hbv]), if_neg (by simp [hbv])]
        exact ih hat
      · rw [if_pos (by simp [hbv, hba]), if_pos (by simpa using hbv)]
        simpa using ih hat

/-- Count of node occurrences not yet visited; the DFS termination measure. -/
def unvis (g : WFG) (V : List Nat) : Nat :=
  ((wuniv g).filter (fun x => decide (x ∉ V))).length

theorem unvis_mono {g : WFG} {V V' : List Nat} (h : V ⊆ V') : unvis g V' ≤ unvis g V := by
  apply filter_length_mono
  intro a _ ha
  simp only [decide_eq_true_eq] at ha ⊢
  exact fun hav => ha (h hav)

theorem unvis_cons_lt {g : WFG} {a : Nat} {V : List Nat} (hu : a ∈ wuniv g) (hv : a ∉ V) :
    unvis g (a :: V) < unvis g V :=
  filter_cons_lt hu hv

theorem unvis_le_fuel (g : WFG) (V : List Nat) : unvis g V < detectFuel g :=
  Nat.lt_succ_of_le (List.length_filter_le _ _)

/-! ### Monotonicity of the visited set through the DFS -/

theorem visitListAux_mono {g : WFG} {vf : Nat → List Nat → List Nat → Option (Bool × List Nat)}
    (hvf : ∀ b V S r, vf b V S = some r → V ⊆ r.2) :
    ∀ bs V S r, visitListAux g vf bs V S = some r → V ⊆ r.2 := by
  intro bs
  induction bs with
  | nil =>
    intro V S r h
    rw [visitListAux] at h
    cases h
    exact fun x hx => hx
  | cons b bs ih =>
    intro V S r h
    rw [visitListAux] at h
    by_cases hbv : b ∈ V
    · rw [if_pos hbv] at h
      by_cases hbs : b ∈ S
      · rw [if_pos hbs] at h; cases h; exact fun x hx => hx
      · rw [if_neg hbs] at h; exact ih _ _ _ h
    · rw [if_neg hbv] at h
      cases hv : vf b V S with
      | none => rw [hv] at h; cases h
      | some p =>
        obtain ⟨bb, v2⟩ := p
        rw [hv] at h
        cases bb
        · exact (hvf _ _ _ _ hv).trans (ih _ _ _ h)
        · cases h; exact hvf _ _ _ _ hv

theorem visit_mono {g : WFG} :
    ∀ fuel node V S r, visit g fuel node V S = some r → V ⊆ r.2 := by
  intro fuel
  induction fuel with
  | zero => intro node V S r h; rw [visit] at h; cases h
  | succ fuel ih =>
    intro node V S r h
    rw [visit] at h
    have := visitListAux_mono (fun b V' S' r' h' => ih b V' S' r' h') _ _ _ _ h
    exact fun x hx => this (List.mem_cons_of_mem _ hx)

/-! ### Fuel sufficiency: `detect_deadlock` never exhausts its fuel -/

theorem visit_isSome {g : WFG} :
    ∀ fuel,
      (∀ node V S, node ∈ wuniv g → node ∉ V → unvis g V ≤ fuel →
        ∃ r, visit g fuel node V S = some r) ∧
      (∀ bs V S, (∀ b ∈ bs, b ∈ wuniv g) → unvis g V ≤ fuel →
        ∃ r, visitListAux g (visit g fuel) bs V S = some r) := by
  intro fuel
  induction fuel with
  | zero =>
    constructor
    · intro node V S hu hv hf
      exfalso
      have := unvis_cons_lt (g := g) (V := V) hu hv
      omega
    · intro bs V S hu hf
      induction bs with
      | nil => exact ⟨(false, V), rfl⟩
      | cons b bs ihb =>
        rw [visitListAux]
        by_cases hbv : b ∈ V
        · rw [if_pos hbv]
          by_cases hbs : b ∈ S
          · rw [if_pos hbs]; exact ⟨_, rfl⟩
          · rw [if_neg hbs]
            exact ihb (fun x hx => hu x (List.mem_cons_of_mem _ hx))
        · exfalso
          have := unvis_cons_lt (g := g) (V := V) (hu b (List.mem_cons_self _ _)) hbv
          omega
  | succ fuel ih =>
    have hvisit : ∀ node V S, node ∈ wuniv g → node ∉ V → unvis g V ≤ fuel + 1 →
        ∃ r, visit g (fuel + 1) node V S = some r := by
      intro node V S hu hv hf
      rw [visit]
      apply ih.2
      · intro b hb; exact nbrs_mem_wuniv hb
      · have := unvis_cons_lt (g := g) (V := V) hu hv
        omega
    refine ⟨hvisit, ?_⟩
    intro bs V S hu hf
    induction bs generalizing V with
    | nil => exact ⟨_, rfl⟩
    | cons b bs ihb =>
      rw [visitListAux]
      by_cases hbv : b ∈ V
      · rw [if_pos hbv]
        by_cases hbs : b ∈ S
        · rw [if_pos hbs]; exact ⟨_, rfl⟩
        · rw [if_neg hbs]
          exact ihb V (fun x hx => hu x (List.mem_cons_of_mem _ hx)) hf
      · rw [if_neg hbv]
        obtain ⟨r, hr⟩ := hvisit b V S (hu b (List.mem_cons_self _ _)) hbv hf
        rw [hr]
        obtain ⟨bb, v2⟩ := r
        cases bb with
        | true => exact ⟨_, rfl⟩
        | false =>
          have hsub : V ⊆ v2 := visit_mono _ _ _ _ _ hr
          exact ihb v2 (fun x hx => hu x (List.mem_cons_of_mem _ hx))
            ((unvis_mono hsub).trans hf)

theorem detectLoop_isSome {g : WFG} :
    ∀ ks V, (∀ k ∈ ks, k ∈ wuniv g) → ∃ r, detectLoop g ks V = some r := by
  intro ks
  induction ks with
  | nil => exact fun V _ => ⟨none, rfl⟩
  | cons k ks ih =>
    intro V hk
    rw [detectLoop]
    by_cases hkv : k ∈ V
    · rw [if_pos hkv]
      exact ih V (fun x hx => hk x (List.mem_cons_of_mem _ hx))
    · rw [if_neg hkv]
      obtain ⟨r, hr⟩ := (visit_isSome (g := g) (detectFuel g)).1 k V []
        (hk k (List.mem_cons_self _ _)) hkv (le_of_lt (unvis_le_fuel g V))
      rw [hr]
      obtain ⟨bb, v2⟩ := r
      cases bb with
      | true => exact ⟨_, rfl⟩
      | false => exact ih v2 (fun x hx => hk x (List.mem_cons_of_mem _ hx))

theorem detect_deadlock_isSome (g : WFG) : ∃ r, detect_deadlock g = some r :=
  detectLoop_isSome _ _ (fun _ hk => List.mem_append_left _ hk)

/-! ### Soundness of a `True` answer: a cycle really exists -/

/-- `y` reaches some node lying on a cycle of the wait-for graph. -/
def reachesCycle (g : WFG) (y : Nat) : Prop :=
  ∃ c, reach g y c ∧ Relation.TransGen (edgeRel g) c c

theorem reachesCycle_step {g : WFG} {x : Nat} (h : reachesCycle g x) :
    ∃ b, edgeRel g x b ∧ reachesCycle g b := by
  obtain ⟨c, hxc, hcyc⟩ := h
  rcases Relation.ReflTransGen.cases_head hxc with heq | ⟨b, hxb, hbc⟩
  · subst heq
    obtain ⟨b, hxb, hbx⟩ := (Relation.TransGen.head'_iff).mp hcyc
    exact ⟨b, hxb, ⟨x, hbx, hcyc⟩⟩
  · exact ⟨b, hxb, ⟨c, hbc, hcyc⟩⟩

theorem visitListAux_true_sound {g : WFG}
    {vf : Nat → List Nat → List Nat → Option (Bool × List Nat)} {x : Nat}
    (hvf : ∀ b V S V₂, (∀ s ∈ S, reach g s b) → vf b V S = some (true, V₂) →
      reachesCycle g b) :
    ∀ bs V S V₂, (∀ s ∈ S, reach g s x) → (∀ b ∈ bs, edgeRel g x b) →
      visitListAux g vf bs V S = some (true, V₂) → reachesCycle g x := by
  intro bs
  induction bs with
  | nil => intro V S V₂ _ _ h; rw [visitListAux] at h; cases h
  | cons b bs ih =>
    intro V S V₂ hS hb h
    have hxb : edgeRel g x b := hb b (List.mem_cons_self _ _)
    rw [visitListAux] at h
    by_cases hbv : b ∈ V
    · rw [if_pos hbv] at h
      by_cases hbs : b ∈ S
      · rw [if_pos hbs] at h
        exact ⟨b, Relation.ReflTransGen.single hxb,
          Relation.TransGen.tail' (hS b hbs) hxb⟩
      · rw [if_neg hbs] at h
        exact ih V S V₂ hS (fun y hy => hb y (List.mem_cons_of_mem _ hy)) h
    · rw [if_neg hbv] at h
      cases hv : vf b V S with
      | none => rw [hv] at h; cases h
      | some p =>
        obtain ⟨bb, v2⟩ := p
        rw [hv] at h
        cases bb with
        | true =>
          cases h
          obtain ⟨c, hbc, hcyc⟩ :=
            hvf b V S _ (fun s hs => Relation.ReflTransGen.tail (hS s hs) hxb) hv
          exact ⟨c, Relation.ReflTransGen.head hxb hbc, hcyc⟩
        | false =>
          exact ih v2 S V₂ hS (fun y hy => hb y (List.mem_cons_of_mem _ hy)) h

theorem visit_true_sound {g : WFG} :
    ∀ fuel node V S V₂, (∀ s ∈ S, reach g s node) →
      visit g fuel node V S = some (true, V₂) → reachesCycle g node := by
  intro fuel
  induction fuel with
  | zero => intro node V S V₂ _ h; rw [visit] at h; cases h
  | succ fuel ih =>
    intro node V S V₂ hS h
    rw [visit] at h
    refine visitListAux_true_sound (x := node)
      (fun b V' S' V₂' hS' hv => ih b V' S' V₂' hS' hv) _ _ _ _ ?_ ?_ h
    · intro s hs
      rcases List.mem_cons.mp hs with rfl | hs
      · exact Relation.ReflTransGen.refl
      · exact hS s hs
    · intro b hb
      exact hb

/-! ### Soundness of a `False` answer: nothing visited reaches a cycle -/

/-- Invariant of the DFS: no fully-processed ("black") node, i.e. visited
and off the stack, reaches a cycle. -/
def noBlackCycle (g : WFG) (V S : List Nat) : Prop :=
  ∀ y ∈ V, y ∉ S → ¬ reachesCycle g y

theorem visitListAux_false_sound {g : WFG}
    {vf : Nat → List Nat → List Nat → Option (Bool × List Nat)}
    (hvf : ∀ b V St V₂, b ∉ V → St ⊆ V → noBlackCycle g V St →
      vf b V St = some (false, V₂) → noBlackCycle g V₂ St ∧ b ∈ V₂ ∧ V ⊆ V₂) :
    ∀ bs V St V₂, St ⊆ V → noBlackCycle g V St →
      visitListAux g vf bs V St = some (false, V₂) →
      noBlackCycle g V₂ St ∧ V ⊆ V₂ ∧ (∀ b ∈ bs, ¬ reachesCycle g b) := by
  intro bs
  induction bs with
  | nil =>
    intro V St V₂ _ hnbc h
    rw [visitListAux] at h
    cases h
    exact ⟨hnbc, fun x hx => hx, fun b hb => absurd hb (List.not_mem_nil b)⟩
  | cons b bs ih =>
    intro V St V₂ hSt hnbc h
    rw [visitListAux] at h
    by_cases hbv : b ∈ V
    · rw [if_pos hbv] at h
      by_cases hbs : b ∈ St
      · rw [if_pos hbs] at h; cases h
      · rw [if_neg hbs] at h
        obtain ⟨h1, h2, h3⟩ := ih V St V₂ hSt hnbc h
        refine ⟨h1, h2, ?_⟩
        intro y hy
        rcases List.mem_cons.mp hy with rfl | hy
        · exact hnbc y hbv hbs
        · exact h3 y hy
    · rw [if_neg hbv] at h
      cases hv : vf b V St with
      | none => rw [hv] at h; cases h
      | some p =>
        obtain ⟨bb, v2⟩ := p
        rw [hv] at h
        cases bb with
        | true => cases h
        | false =>
          obtain ⟨hn2, hb2, hV2⟩ := hvf b V St v2 hbv hSt hnbc hv
          have hbSt : b ∉ St := fun hbs => hbv (hSt hbs)
          obtain ⟨h1, h2, h3⟩ := ih v2 St V₂ (hSt.trans hV2) hn2 h
          refine ⟨h1, hV2.trans h2, ?_⟩
          intro y hy
          rcases List.mem_cons.mp hy with rfl | hy
          · exact hn2 y hb2 hbSt
          · exact h3 y hy

theorem visit_false_sound {g : WFG} :
    ∀ fuel node V S V₂, node ∉ V → S ⊆ V → noBlackCycle g V S →
      visit g fuel node V S = some (false, V₂) →
      noBlackCycle g V₂ S ∧ node ∈ V₂ ∧ V ⊆ V₂ := by
  intro fuel
  induction fuel with
  | zero => intro node V S V₂ _ _ _ h; rw [visit] at h; cases h
  | succ fuel ih =>
    intro node V S V₂ hnv hS hnbc h
    rw [visit] at h
    have hS' : (node :: S) ⊆ (node :: V) := by
      intro x hx
      rcases List.mem_cons.mp hx with rfl | hx
      · exact List.mem_cons_self _ _
      · exact List.mem_cons_of_mem _ (hS hx)
    have hnbc' : noBlackCycle g (node :: V) (node :: S) := by
      intro y hy hyn
      rcases List.mem_cons.mp hy with rfl | hy
      · exact absurd (List.mem_cons_self _ _) hyn
      · exact hnbc y hy (fun hys => hyn (List.mem_cons_of_mem _ hys))
    obtain ⟨hn2, hsub, hnb⟩ :=
      visitListAux_false_sound (fun b V' St' V₂' hb hst hn hv => ih b V' St' V₂' hb hst hn hv)
        (nbrs g node) (node :: V) (node :: S) V₂ hS' hnbc' h
    have hnbmem : ∀ b ∈ nbrs g node, ¬ reachesCycle g b := hnb
    refine ⟨?_, hsub (List.mem_cons_self _ _), fun x hx => hsub (List.mem_cons_of_mem _ hx)⟩
    intro y hy hyS
    by_cases hyn : y = node
    · subst hyn
      intro hrc
      obtain ⟨b, hxb, hrcb⟩ := reachesCycle_step hrc
      exact hnbmem b hxb hrcb
    · exact hn2 y hy (fun hys => by
        rcases List.mem_cons.mp hys with h | h
        · exact hyn h
        · exact hyS h)

/-! ### Correctness of `detect_deadlock` -/

theorem detectLoop_none_sound {g : WFG} :
    ∀ ks V, (∀ y ∈ V, ¬ reachesCycle g y) → detectLoop g ks V = some none →
      ∀ k ∈ ks, ¬ reachesCycle g k := by
  intro ks
  induction ks with
  | nil => intro V _ _ k hk; exact absurd hk (List.not_mem_nil k)
  | cons k ks ih =>
    intro V hV h
    rw [detectLoop] at h
    by_cases hkv : k ∈ V
    · rw [if_pos hkv] at h
      intro y hy
      rcases List.mem_cons.mp hy with rfl | hy
      · exact hV y hkv
      · exact ih V hV h y hy
    · rw [if_neg hkv] at h
      cases hv : visit g (detectFuel g) k V [] with
      | none => rw [hv] at h; cases h
      | some p =>
        obtain ⟨bb, v2⟩ := p
        rw [hv] at h
        cases bb with
        | true => cases h
        | false =>
          obtain ⟨hn2, hk2, _⟩ := visit_false_sound _ k V [] v2 hkv
            (List.nil_subset V) (fun y hy _ => hV y hy) hv
          have hV2 : ∀ y ∈ v2, ¬ reachesCycle g y :=
            fun y hy => hn2 y hy (List.not_mem_nil y)
          intro y hy
          rcases List.mem_cons.mp hy with rfl | hy
          · exact hV2 y hk2
          · exact ih v2 hV2 h y hy

theorem detect_deadlock_none_acyclic {g : WFG} (h : detect_deadlock g = some none) :
    ¬ hasCycle g := by
  rintro ⟨c, hc⟩
  have hckeys : c ∈ wkeys g := by
    obtain ⟨b, hcb, _⟩ := (Relation.TransGen.head'_iff).mp hc
    exact edge_src_mem_wkeys hcb
  rw [detect_deadlock] at h
  exact detectLoop_none_sound _ _ (fun y hy => absurd hy (List.not_mem_nil y)) h c hckeys
    ⟨c, Relation.ReflTransGen.refl, hc⟩

theorem detectLoop_some_sound {g : WFG} :
    ∀ ks V n, detectLoop g ks V = some (some n) → reachesCycle g n := by
  intro ks
  induction ks with
  | nil => intro V n h; rw [detectLoop] at h; cases h
  | cons k ks ih =>
    intro V n h
    rw [detectLoop] at h
    by_cases hkv : k ∈ V
    · rw [if_pos hkv] at h
      exact ih V n h
    · rw [if_neg hkv] at h
      cases hv : visit g (detectFuel g) k V [] with
      | none => rw [hv] at h; cases h
      | some p =>
        obtain ⟨bb, v2⟩ := p
        rw [hv] at h
        cases bb with
        | true =>
          cases h
          exact visit_true_sound _ k V [] v2 (fun s hs => absurd hs (List.not_mem_nil s)) hv
        | false => exact ih v2 n h

theorem detect_deadlock_some_sound {g : WFG} {n : Nat}
    (h : detect_deadlock g = some (some n)) : reachesCycle g n :=
  detectLoop_some_sound _ _ _ h

theorem hasCycle_detect_some {g : WFG} (h : hasCycle g) :
    ∃ n, detect_deadlock g = some (some n) := by
  obtain ⟨r, hr⟩ := detect_deadlock_isSome g
  cases r with
  | none => exact absurd h (detect_deadlock_none_acyclic hr)
  | some n => exact ⟨n, hr⟩

/-! ### Lock table (`lock_manager.py`, class `LockManager`)

The blocking `while True` loop of `_try_acquire_lock` is embedded as its
non-blocking single pass `tryAcquirePass` (the state transformation
performed between two suspension points), plus `timeoutRemove` for the
timeout branch.  `acquire_lock` is the guard logic of the public method
around the first pass. -/

inductive LockType where
  | SHARED
  | EXCLUSIVE
deriving DecidableEq

/-- `LockEntry`: lock mode, holder set, waiter queue. -/
structure LockEntry where
  lock_type : LockType
  holders : List Nat
  waiting : List (Nat × LockType)
deriving DecidableEq

abbrev ResourceKey := String × Nat

abbrev LockTable := List (ResourceKey × LockEntry)

/-- The shared mutable state of the lock manager: `self._locks` and
`self.wait_for_graph`. -/
structure LMState where
  locks : LockTable
  wait_for_graph : WFG
deriving DecidableEq

def initialLM : LMState := ⟨[], []⟩

/-- Outcome of one pass of the acquisition loop. -/
inductive AcqOutcome where
  | granted (s : LMState)
  | deadlock (txn : Nat) (s : LMState)
  | suspended (s : LMState)
deriving DecidableEq

def acqState : AcqOutcome → LMState
  | .granted s => s
  | .deadlock _ s => s
  | .suspended s => s

/-- `conflicting_holders = list(entry.holders)` with `txn_id` removed. -/
def conflictingHolders (e : LockEntry) (txn : Nat) : List Nat :=
  e.holders.filter (fun h => h ≠ txn)

/-- The `for holder_id in conflicting_holders: add_dependency` loop. -/
def addEdges (g : WFG) (txn : Nat) (hs : List Nat) : WFG :=
  hs.foldl (fun acc h => addDependency acc txn h) g

/-- The compatibility check of `_try_acquire_lock` (`can_grant`). -/
def canGrant (entry : LockEntry) (lt : LockType) : Bool :=
  match lt with
  | .SHARED => decide (entry.lock_type = .SHARED)
  | .EXCLUSIVE => decide (entry.holders.length = 0)

/-- The grant mutation of `_try_acquire_lock`: SHARED adds a holder,
EXCLUSIVE sets the mode and adds the holder. -/
def grantEntry (entry : LockEntry) (txn : Nat) (lt : LockType) : LockEntry :=
  match lt with
  | .SHARED => { entry with holders := sadd entry.holders txn }
  | .EXCLUSIVE => { entry with lock_type := .EXCLUSIVE, holders := sadd entry.holders txn }

/-- One pass of the `while True` body of `_try_acquire_lock`: grant, or
raise `DeadlockException` (self-abort: the raised id is the requester's),
or append to the waiter queue (first pass only) and suspend.
`detect_deadlock`'s impossible fuel-exhaustion answer is treated like the
no-cycle answer (see `detect_deadlock_isSome`). -/
def tryAcquirePass (s : LMState) (txn : Nat) (key : ResourceKey) (lt : LockType)
    (startWaiting : Bool) : AcqOutcome :=
  match alookup s.locks key with
  | none =>
      AcqOutcome.granted ⟨aupdate s.locks key ⟨lt, [txn], []⟩,
        removeWaiting s.wait_for_graph txn⟩
  | some entry =>
      if canGrant entry lt then
        AcqOutcome.granted ⟨aupdate s.locks key (grantEntry entry txn lt),
          removeWaiting s.wait_for_graph txn⟩
      else
        let g2 := addEdges s.wait_for_graph txn (conflictingHolders entry txn)
        match detect_deadlock g2 with
        | some (some _) => AcqOutcome.deadlock txn ⟨s.locks, removeWaiting g2 txn⟩
        | _ =>
            if startWaiting then AcqOutcome.suspended ⟨s.locks, g2⟩
            else
              AcqOutcome.suspended
                ⟨aupdate s.locks key { entry with waiting := entry.waiting ++ [(txn, lt)] }, g2⟩

/-- The timeout branch of `_try_acquire_lock`: remove self from the waiter
queue and clear own wait-for edges. -/
def timeoutRemove (s : LMState) (txn : Nat) (key : ResourceKey) : LMState :=
  match alookup s.locks key with
  | none => s
  | some entry =>
      ⟨aupdate s.locks key { entry with waiting := entry.waiting.filter (fun p => p.1 ≠ txn) },
        removeWaiting s.wait_for_graph txn⟩

/-- Outcome of one pass of `_upgrade_lock_internal`. -/
inductive UpgOutcome where
  | success (s : LMState)
  | blocked (s : LMState)
deriving DecidableEq

/-- One pass of `_upgrade_lock_internal`: sole holder upgrades in place,
otherwise wait (the entry is looked up once; it exists whenever the
source calls this). -/
def upgradePass (s : LMState) (txn : Nat) (key : ResourceKey) : UpgOutcome :=
  match alookup s.locks key with
  | none => UpgOutcome.blocked s
  | some entry =>
      if entry.holders.length = 1 ∧ txn ∈ entry.holders then
        UpgOutcome.success ⟨aupdate s.locks key { entry with lock_type := .EXCLUSIVE },
          s.wait_for_graph⟩
      else UpgOutcome.blocked s

/-- `LockManager.acquire_lock` up to its first suspension point:
re-entrant fast path, upgrade path, else `_try_acquire_lock`. -/
def acquire_lock (s : LMState) (txn : Nat) (key : ResourceKey) (lt : LockType) :
    AcqOutcome :=
  match alookup s.locks key with
  | some entry =>
      if txn ∈ entry.holders then
        if entry.lock_type = .SHARED ∧ lt = .EXCLUSIVE then
          match upgradePass s txn key with
          | .success s2 => AcqOutcome.granted s2
          | .blocked s2 => AcqOutcome.suspended s2
        else AcqOutcome.granted s
      else tryAcquirePass s txn key lt false
  | none => tryAcquirePass s txn key lt false

/-- Result of `LockManager.upgrade_lock`. -/
inductive UpgLockResult where
  | result (b : Bool) (s : LMState)
  | blocked (s : LMState)
deriving DecidableEq

def upgLockState : UpgLockResult → LMState
  | .result _ s => s
  | .blocked s => s

/-- `LockManager.upgrade_lock`. -/
def upgrade_lock (s : LMState) (txn : Nat) (key : ResourceKey) : UpgLockResult :=
  match alookup s.locks key with
  | none => UpgLockResult.result false s
  | some entry =>
      if txn ∈ entry.holders then
        if entry.lock_type = .EXCLUSIVE then UpgLockResult.result true s
        else match upgradePass s txn key with
          | .success s2 => UpgLockResult.result true s2
          | .blocked s2 => UpgLockResult.blocked s2
      else UpgLockResult.result false s

/-- `LockManager.release_lock`: remove the holder; an emptied entry is
deleted when no waiters remain, otherwise kept (waiters are notified). -/
def release_lock (s : LMState) (txn : Nat) (key : ResourceKey) : LMState :=
  match alookup s.locks key with
  | none => s
  | some entry =>
      if txn ∈ entry.holders then
        let e2 := { entry with holders := entry.holders.filter (fun h => h ≠ txn) }
        if e2.holders.length = 0 then
          if e2.waiting = [] then ⟨aerase s.locks key, s.wait_for_graph⟩
          else ⟨aupdate s.locks key e2, s.wait_for_graph⟩
        else ⟨aupdate s.locks key e2, s.wait_for_graph⟩
      else s

/-- The resources `release_all_locks` collects: keys whose entry holds `txn`. -/
def heldKeys (t : LockTable) (txn : Nat) : List ResourceKey :=
  (t.filter (fun p => txn ∈ p.2.holders)).map Prod.fst

/-- `LockManager.release_all_locks`: release each held resource in turn. -/
def release_all_locks (s : LMState) (txn : Nat) : LMState :=
  (heldKeys s.locks txn).foldl (fun acc k => release_lock acc txn k) s

/-! ### Reachable lock-manager states

One constructor per state mutation the source can perform: a fresh
`acquire_lock` call, a retry pass after wake-up, a wait timeout, an
upgrade call, a release, a release-all. -/

inductive LMStep : LMState → LMState → Prop where
  | acquire {s : LMState} (txn : Nat) (key : ResourceKey) (lt : LockType) :
      LMStep s (acqState (acquire_lock s txn key lt))
  | retryPass {s : LMState} (txn : Nat) (key : ResourceKey) (lt : LockType) :
      LMStep s (acqState (tryAcquirePass s txn key lt true))
  | timeout {s : LMState} (txn : Nat) (key : ResourceKey) :
      LMStep s (timeoutRemove s txn key)
  | upgrade {s : LMState} (txn : Nat) (key : ResourceKey) :
      LMStep s (upgLockState (upgrade_lock s txn key))
  | release {s : LMState} (txn : Nat) (key : ResourceKey) :
      LMStep s (release_lock s txn key)
  | releaseAll {s : LMState} (txn : Nat) :
      LMStep s (release_all_locks s txn)

inductive LMReachable : LMState → Prop where
  | init : LMReachable initialLM
  | step {s s2 : LMState} : LMReachable s → LMStep s s2 → LMReachable s2

/-! ### More association-list lemmas, for the state invariants -/

theorem mem_aupdate {α β : Type} [DecidableEq α] {t : List (α × β)} {k : α} {v : β}
    {p : α × β} (h : p ∈ aupdate t k v) : p = (k, v) ∨ p ∈ t := by
  induction t with
  | nil => simpa [aupdate] using h
  | cons q t ih =>
    obtain ⟨a, b⟩ := q
    rw [aupdate] at h
    by_cases hak : a = k
    · rw [if_pos hak] at h
      rcases List.mem_cons.mp h with rfl | h
      · exact Or.inl rfl
      · exact Or.inr (List.mem_cons_of_mem _ h)
    · rw [if_neg hak] at h
      rcases List.mem_cons.mp h with rfl | h
      · exact Or.inr (List.mem_cons_self _ _)
      · rcases ih h with h | h
        · exact Or.inl h
        · exact Or.inr (List.mem_cons_of_mem _ h)

theorem aerase_sublist {α β : Type} [DecidableEq α] (t : List (α × β)) (k : α) :
    (aerase t k).Sublist t := by
  induction t with
  | nil => simp [aerase]
  | cons q t ih =>
    obtain ⟨a, b⟩ := q
    rw [aerase]
    by_cases hak : a = k
    · rw [if_pos hak]
      exact (List.Sublist.refl t).cons _
    · rw [if_neg hak]
      exact ih.cons₂ _

theorem alookup_aupdate_self {α β : Type} [DecidableEq α] (t : List (α × β)) (k : α) (v : β) :
    alookup (aupdate t k v) k = some v := by
  induction t with
  | nil => simp [aupdate, alookup]
  | cons q t ih =>
    obtain ⟨a, b⟩ := q
    rw [aupdate]
    by_cases hak : a = k
    · rw [if_pos hak, alookup, if_pos rfl]
    · rw [if_neg hak, alookup, if_neg hak]
      exact ih

theorem alookup_aupdate_ne {α β : Type} [DecidableEq α] (t : List (α × β)) {k k' : α}
    (v : β) (h : k ≠ k') : alookup (aupdate t k v) k' = alookup t k' := by
  induction t with
  | nil => simp [aupdate, alookup, h]
  | cons q t ih =>
    obtain ⟨a, b⟩ := q
    rw [aupdate]
    by_cases hak : a = k
    · subst hak
      rw [if_pos rfl, alookup, alookup, if_neg h, if_neg h]
    · rw [if_neg hak, alookup, alookup]
      by_cases hak' : a = k'
      · rw [if_pos hak', if_pos hak']
      · rw [if_neg hak', if_neg hak']
        exact ih

theorem not_mem_of_alookup_none {α β : Type} [DecidableEq α] {t : List (α × β)} {k : α}
    (h : alookup t k = none) : k ∉ t.map Prod.fst := by
  induction t with
  | nil => simp
  | cons q t ih =>
    obtain ⟨a, b⟩ := q
    rw [alookup] at h
    by_cases hak : a = k
    · rw [if_pos hak] at h; cases h
    · rw [if_neg hak] at h
      simp only [List.map_cons, List.mem_cons]
      rintro (rfl | hm)
      · exact hak rfl
      · exact ih h hm

theorem alookup_none_of_not_mem {α β : Type} [DecidableEq α] {t : List (α × β)} {k : α}
    (h : k ∉ t.map Prod.fst) : alookup t k = none := by
  induction t with
  | nil => rfl
  | cons q t ih =>
    obtain ⟨a, b⟩ := q
    simp only [List.map_cons, List.mem_cons, not_or] at h
    rw [alookup, if_neg (fun hak => h.1 hak.symm)]
    exact ih h.2

theorem keys_aupdate_some {α β : Type} [DecidableEq α] {t : List (α × β)} {k : α}
    {w : β} (hl : alookup t k = some w) (v : β) :
    (aupdate t k v).map Prod.fst = t.map Prod.fst := by
  induction t with
  | nil => cases hl
  | cons q t ih =>
    obtain ⟨a, b⟩ := q
    rw [alookup] at hl
    rw [aupdate]
    by_cases hak : a = k
    · rw [if_pos hak]
      simp [hak]
    · rw [if_neg hak] at hl
      rw [if_neg hak]
      simp [ih hl]

theorem keys_aupdate_none {α β : Type} [DecidableEq α] {t : List (α × β)} {k : α}
    (hl : alookup t k = none) (v : β) :
    (aupdate t k v).map Prod.fst = t.map Prod.fst ++ [k] := by
  induction t with
  | nil => simp [aupdate]
  | cons q t ih =>
    obtain ⟨a, b⟩ := q
    rw [alookup] at hl
    by_cases hak : a = k
    · rw [if_pos hak] at hl; cases hl
    · rw [if_neg hak] at hl
      rw [aupdate, if_neg hak]
      simp [ih hl]

theorem keysNodup_aupdate {α β : Type} [DecidableEq α] {t : List (α × β)} {k : α} {v : β}
    (h : (t.map Prod.fst).Nodup) : ((aupdate t k v).map Prod.fst).Nodup := by
  cases hl : alookup t k with
  | some w => rw [keys_aupdate_some hl]; exact h
  | none =>
    rw [keys_aupdate_none hl]
    simp only [List.nodup_append, List.nodup_cons, List.not_mem_nil, not_false_iff,
      List.nodup_nil, and_true, true_and]
    constructor
    · exact h
    · intro x hx hxk
      rcases List.mem_singleton.mp hxk with rfl
      exact not_mem_of_alookup_none hl hx

theorem alookup_aerase_ne {α β : Type} [DecidableEq α] (t : List (α × β)) {k k' : α}
    (h : k ≠ k') : alookup (aerase t k) k' = alookup t k' := by
  induction t with
  | nil => rfl
  | cons q t ih =>
    obtain ⟨a, b⟩ := q
    rw [aerase]
    by_cases hak : a = k
    · subst hak
      rw [if_pos rfl, alookup, if_neg h]
    · rw [if_neg hak, alookup, alookup]
      by_cases hak' : a = k'
      · rw [if_pos hak', if_pos hak']
      · rw [if_neg hak', if_neg hak']
        exact ih

theorem alookup_aerase_self {α β : Type} [DecidableEq α] {t : List (α × β)} {k : α}
    (hnd : (t.map Prod.fst).Nodup) : alookup (aerase t k) k = none := by
  induction t with
  | nil => rfl
  | cons q t ih =>
    obtain ⟨a, b⟩ := q
    simp only [List.map_cons, List.nodup_cons] at hnd
    rw [aerase]
    by_cases hak : a = k
    · subst hak
      rw [if_pos rfl]
      exact alookup_none_of_not_mem hnd.1
    · rw [if_neg hak, alookup, if_neg hak]
      exact ih hnd.2

/-! ### The lock-table invariant: EXCLUSIVE entries have at most one holder -/

/-- Table well-formedness: keys are unique (it models a dict) and every
EXCLUSIVE entry has at most one holder. -/
def goodTable (t : LockTable) : Prop :=
  (t.map Prod.fst).Nodup ∧
    ∀ p ∈ t, p.2.lock_type = LockType.EXCLUSIVE → p.2.holders.length ≤ 1

theorem goodTable_aupdate {t : LockTable} {k : ResourceKey} {e : LockEntry}
    (h : goodTable t)
    (he : e.lock_type = LockType.EXCLUSIVE → e.holders.length ≤ 1) :
    goodTable (aupdate t k e) := by
  refine ⟨keysNodup_aupdate h.1, ?_⟩
  intro p hp
  rcases mem_aupdate hp with rfl | hp
  · exact he
  · exact h.2 p hp

theorem goodTable_aerase {t : LockTable} {k : ResourceKey} (h : goodTable t) :
    goodTable (aerase t k) :=
  ⟨h.1.sublist ((aerase_sublist t k).map Prod.fst),
    fun p hp => h.2 p ((aerase_sublist t k).subset hp)⟩

theorem goodTable_entry {t : LockTable} {k : ResourceKey} {e : LockEntry}
    (h : goodTable t) (hl : alookup t k = some e) :
    e.lock_type = LockType.EXCLUSIVE → e.holders.length ≤ 1 :=
  h.2 (k, e) (alookup_mem _ _ _ hl)

theorem goodTable_tryAcquirePass {s : LMState} {txn : Nat} {key : ResourceKey}
    {lt : LockType} {w : Bool} (h : goodTable s.locks) :
    goodTable (acqState (tryAcquirePass s txn key lt w)).locks := by
  cases hl : alookup s.locks key with
  | none =>
    simp only [tryAcquirePass, hl, acqState]
    refine goodTable_aupdate h ?_
    intro _
    simp
  | some entry =>
    have hent := goodTable_entry h hl
    by_cases hg : canGrant entry lt = true
    · simp only [tryAcquirePass, hl, if_pos hg, acqState]
      refine goodTable_aupdate h ?_
      cases lt with
      | SHARED =>
        intro hx
        simp only [canGrant, decide_eq_true_eq] at hg
        simp only [grantEntry] at hx
        rw [hg] at hx
        cases hx
      | EXCLUSIVE =>
        intro _
        simp only [canGrant, decide_eq_true_eq] at hg
        have hnil : entry.holders = [] := List.length_eq_zero.mp hg
        simp [grantEntry, sadd, hnil]
    · cases hd : detect_deadlock (addEdges s.wait_for_graph txn (conflictingHolders entry txn)) with
      | none =>
        cases w with
        | true => simpa only [tryAcquirePass, hl, if_neg hg, hd, acqState, if_pos] using h
        | false =>
          simp only [tryAcquirePass, hl, if_neg hg, hd, acqState, Bool.false_eq_true,
            if_false]
          exact goodTable_aupdate h hent
      | some v =>
        cases v with
        | none =>
          cases w with
          | true => simpa only [tryAcquirePass, hl, if_neg hg, hd, acqState, if_pos] using h
          | false =>
            simp only [tryAcquirePass, hl, if_neg hg, hd, acqState, Bool.false_eq_true,
              if_false]
            exact goodTable_aupdate h hent
        | some victim =>
          simpa only [tryAcquirePass, hl, if_neg hg, hd, acqState] using h

theorem goodTable_timeoutRemove {s : LMState} {txn : Nat} {key : ResourceKey}
    (h : goodTable s.locks) : goodTable (timeoutRemove s txn key).locks := by
  cases hl : alookup s.locks key with
  | none => simpa only [timeoutRemove, hl] using h
  | some entry =>
    simp only [timeoutRemove, hl]
    refine goodTable_aupdate h ?_
    intro hx
    dsimp only at hx ⊢
    exact goodTable_entry h hl hx

theorem goodTable_upgradePass {s : LMState} {txn : Nat} {key : ResourceKey}
    (h : goodTable s.locks) :
    goodTable (match upgradePass s txn key with
      | .success s2 => s2
      | .blocked s2 => s2).locks := by
  cases hl : alookup s.locks key with
  | none => simpa only [upgradePass, hl] using h
  | some entry =>
    by_cases hc : entry.holders.length = 1 ∧ txn ∈ entry.holders
    · simp only [upgradePass, hl, if_pos hc]
      refine goodTable_aupdate h ?_
      intro _
      simp only
      omega
    · simpa only [upgradePass, hl, if_neg hc] using h

theorem goodTable_acquire_lock {s : LMState} {txn : Nat} {key : ResourceKey}
    {lt : LockType} (h : goodTable s.locks) :
    goodTable (acqState (acquire_lock s txn key lt)).locks := by
  cases hl : alookup s.locks key with
  | none =>
    simp only [acquire_lock, hl]
    exact goodTable_tryAcquirePass h
  | some entry =>
    by_cases hh : txn ∈ entry.holders
    · by_cases hu : entry.lock_type = LockType.SHARED ∧ lt = LockType.EXCLUSIVE
      · simp only [acquire_lock, hl, if_pos hh, if_pos hu]
        have := @goodTable_upgradePass s txn key h
        cases hup : upgradePass s txn key with
        | success s2 => rw [hup] at this; simpa only [hup, acqState] using this
        | blocked s2 => rw [hup] at this; simpa only [hup, acqState] using this
      · simpa only [acquire_lock, hl, if_pos hh, if_neg hu, acqState] using h
    · simp only [acquire_lock, hl, if_neg hh]
      exact goodTable_tryAcquirePass h

theorem goodTable_upgrade_lock {s : LMState} {txn : Nat} {key : ResourceKey}
    (h : goodTable s.locks) :
    goodTable (upgLockState (upgrade_lock s txn key)).locks := by
  cases hl : alookup s.locks key with
  | none => simpa only [upgrade_lock, hl, upgLockState] using h
  | some entry =>
    by_cases hh : txn ∈ entry.holders
    · by_cases hx : entry.lock_type = LockType.EXCLUSIVE
      · simpa only [upgrade_lock, hl, if_pos hh, if_pos hx, upgLockState] using h
      · simp only [upgrade_lock, hl, if_pos hh, if_neg hx]
        have := @goodTable_upgradePass s txn key h
        cases hup : upgradePass s txn key with
        | success s2 => rw [hup] at this; simpa only [hup, upgLockState] using this
        | blocked s2 => rw [hup] at this; simpa only [hup, upgLockState] using this
    · simpa only [upgrade_lock, hl, if_neg hh, upgLockState] using h

theorem goodTable_release_lock {s : LMState} {txn : Nat} {key : ResourceKey}
    (h : goodTable s.locks) : goodTable (release_lock s txn key).locks := by
  cases hl : alookup s.locks key with
  | none => simpa only [release_lock, hl] using h
  | some entry =>
    have hent := goodTable_entry h hl
    have hfl : (entry.holders.filter (fun hh => hh ≠ txn)).length ≤ entry.holders.length :=
      List.length_filter_le _ _
    by_cases hh : txn ∈ entry.holders
    · simp only [release_lock, hl, if_pos hh]
      by_cases h0 : ({ entry with holders := entry.holders.filter (fun hh => hh ≠ txn)} :
          LockEntry).holders.length = 0
      · rw [if_pos h0]
        by_cases hwq : ({ entry with holders := entry.holders.filter (fun hh => hh ≠ txn)} :
            LockEntry).waiting = []
        · rw [if_pos hwq]
          exact goodTable_aerase h
        · rw [if_neg hwq]
          refine goodTable_aupdate h ?_
          intro hx
          simp only at hx ⊢
          have := hent hx
          omega
      · rw [if_neg h0]
        refine goodTable_aupdate h ?_
        intro hx
        simp only at hx ⊢
        have := hent hx
        omega
    · simpa only [release_lock, hl, if_neg hh] using h

theorem goodTable_release_all {s : LMState} {txn : Nat} (h : goodTable s.locks) :
    goodTable (release_all_locks s txn).locks := by
  rw [release_all_locks]
  generalize heldKeys s.locks txn = ks
  induction ks generalizing s with
  | nil => simpa using h
  | cons k ks ih =>
    rw [List.foldl_cons]
    exact ih (goodTable_release_lock h)

theorem goodTable_step {s s2 : LMState} (h : goodTable s.locks) (hs : LMStep s s2) :
    goodTable s2.locks := by
  cases hs with
  | acquire txn key lt => exact goodTable_acquire_lock h
  | retryPass txn key lt => exact goodTable_tryAcquirePass h
  | timeout txn key => exact goodTable_timeoutRemove h
  | upgrade txn key => exact goodTable_upgrade_lock h
  | release txn key => exact goodTable_release_lock h
  | releaseAll txn => exact goodTable_release_all h

theorem reachable_goodTable {s : LMState} (h : LMReachable s) : goodTable s.locks := by
  induction h with
  | init => exact ⟨List.nodup_nil, fun p hp => absurd hp (List.not_mem_nil p)⟩
  | step _ hs ih => exact goodTable_step ih hs

/-! ### Edges added and removed by the wait-for-graph operations -/

theorem alookup_append_single {α β : Type} [DecidableEq α] (l : List (α × β)) (x : α)
    (v : β) (a : α) :
    alookup (l ++ [(x, v)]) a = match alookup l a with
      | some w => some w
      | none => if x = a then some v else none := by
  induction l with
  | nil => simp [alookup]
  | cons q t ih =>
    obtain ⟨c, b⟩ := q
    rw [List.cons_append, alookup, alookup]
    by_cases hca : c = a
    · rw [if_pos hca, if_pos hca]
    · rw [if_neg hca, if_neg hca]
      exact ih

theorem edge_append_single {g : WFG} {x : Nat} {v : List Nat} {a b : Nat}
    (he : edgeRel g a b) : edgeRel (g ++ [(x, v)]) a b := by
  unfold edgeRel nbrs at he ⊢
  cases hl : alookup g a with
  | none => rw [hl] at he; simp at he
  | some l =>
    rw [hl] at he
    rw [alookup_append_single, hl]
    exact he

theorem edge_of_append_single_nil {g : WFG} {x a b : Nat}
    (he : edgeRel (g ++ [(x, [])]) a b) : edgeRel g a b := by
  unfold edgeRel nbrs at he ⊢
  rw [alookup_append_single] at he
  cases hl : alookup g a with
  | none =>
    rw [hl] at he
    by_cases hxa : x = a
    · rw [if_pos hxa] at he; simp at he
    · rw [if_neg hxa] at he; simp at he
  | some l => rw [hl] at he; exact he

theorem mem_sadd {l : List Nat} {x b : Nat} (h : b ∈ sadd l x) : b ∈ l ∨ b = x := by
  unfold sadd at h
  by_cases hx : x ∈ l
  · rw [if_pos hx] at h; exact Or.inl h
  · rw [if_neg hx] at h
    rcases List.mem_append.mp h with h | h
    · exact Or.inl h
    · exact Or.inr (List.mem_singleton.mp h)

theorem sadd_subset {l : List Nat} {x : Nat} : l ⊆ sadd l x := by
  unfold sadd
  by_cases hx : x ∈ l
  · rw [if_pos hx]
    exact fun a ha => ha
  · rw [if_neg hx]
    exact List.subset_append_left _ _

theorem mem_sadd_self {l : List Nat} {x : Nat} : x ∈ sadd l x := by
  unfold sadd
  by_cases hx : x ∈ l
  · rw [if_pos hx]; exact hx
  · rw [if_neg hx]
    exact List.mem_append_right _ (List.mem_singleton.mpr rfl)

theorem edge_addDependency {g : WFG} {w hh a b : Nat}
    (he : edgeRel (addDependency g w hh) a b) : edgeRel g a b ∨ (a = w ∧ b = hh) := by
  unfold addDependency at he
  cases hw : alookup g w with
  | some s =>
    simp only [hw] at he
    have he2 : edgeRel (aupdate g w (sadd s hh)) a b := by
      cases hh2 : alookup (aupdate g w (sadd s hh)) hh with
      | some _ => simpa only [hh2] using he
      | none => exact edge_of_append_single_nil (by simpa only [hh2] using he)
    by_cases haw : a = w
    · subst haw
      unfold edgeRel nbrs at he2
      rw [alookup_aupdate_self] at he2
      simp only [Option.getD_some] at he2
      rcases mem_sadd he2 with h | h
      · left
        unfold edgeRel nbrs
        rw [hw]
        exact h
      · exact Or.inr ⟨rfl, h⟩
    · left
      unfold edgeRel nbrs at he2 ⊢
      rwa [alookup_aupdate_ne _ _ (fun hk => haw hk.symm)] at he2
  | none =>
    simp only [hw] at he
    have he2 : edgeRel (g ++ [(w, [hh])]) a b := by
      cases hh2 : alookup (g ++ [(w, [hh])]) hh with
      | some _ => simpa only [hh2] using he
      | none => exact edge_of_append_single_nil (by simpa only [hh2] using he)
    unfold edgeRel nbrs at he2
    rw [alookup_append_single] at he2
    cases ha : alookup g a with
    | some l =>
      rw [ha] at he2
      left
      unfold edgeRel nbrs
      rw [ha]
      exact he2
    | none =>
      rw [ha] at he2
      by_cases hwa : w = a
      · rw [if_pos hwa] at he2
        simp only [Option.getD_some, List.mem_singleton] at he2
        exact Or.inr ⟨hwa.symm, he2⟩
      · rw [if_neg hwa] at he2
        simp at he2

theorem edge_mono_addDependency {g : WFG} {w hh a b : Nat} (he : edgeRel g a b) :
    edgeRel (addDependency g w hh) a b := by
  unfold addDependency
  cases hw : alookup g w with
  | some s =>
    have he2 : edgeRel (aupdate g w (sadd s hh)) a b := by
      by_cases haw : a = w
      · subst haw
        unfold edgeRel nbrs at he ⊢
        rw [hw] at he
        rw [alookup_aupdate_self]
        exact sadd_subset he
      · unfold edgeRel nbrs at he ⊢
        rwa [alookup_aupdate_ne _ _ (fun hk => haw hk.symm)]
    cases hh2 : alookup (aupdate g w (sadd s hh)) hh with
    | some _ => simpa only [hh2] using he2
    | none => simpa only [hh2] using edge_append_single he2
  | none =>
    have he2 : edgeRel (g ++ [(w, [hh])]) a b := edge_append_single he
    cases hh2 : alookup (g ++ [(w, [hh])]) hh with
    | some _ => simpa only [hh2] using he2
    | none => simpa only [hh2] using edge_append_single he2

theorem edge_addEdges {g : WFG} {txn : Nat} {hs : List Nat} {a b : Nat}
    (he : edgeRel (addEdges g txn hs) a b) : edgeRel g a b ∨ a = txn := by
  induction hs generalizing g with
  | nil => exact Or.inl he
  | cons hh hs ih =>
    rw [addEdges, List.foldl_cons] at he
    rcases ih (g := addDependency g txn hh) he with h | h
    · rcases edge_addDependency h with h | h
      · exact Or.inl h
      · exact Or.inr h.1
    · exact Or.inr h

theorem edge_mono_addEdges {g : WFG} {txn : Nat} {hs : List Nat} {a b : Nat}
    (he : edgeRel g a b) : edgeRel (addEdges g txn hs) a b := by
  induction hs generalizing g with
  | nil => exact he
  | cons hh hs ih =>
    rw [addEdges, List.foldl_cons]
    exact ih (edge_mono_addDependency he)

theorem nbrs_removeWaiting_self (g : WFG) (txn : Nat) :
    nbrs (removeWaiting g txn) txn = [] := by
  unfold removeWaiting
  cases hl : alookup g txn with
  | none =>
    unfold nbrs
    rw [hl]
    rfl
  | some s =>
    unfold nbrs
    rw [alookup_aupdate_self]
    rfl

theorem edge_removeWaiting {g : WFG} {txn a b : Nat}
    (he : edgeRel (removeWaiting g txn) a b) : edgeRel g a b ∧ a ≠ txn := by
  have hat : a ≠ txn := by
    rintro rfl
    unfold edgeRel at he
    rw [nbrs_removeWaiting_self] at he
    simp at he
  refine ⟨?_, hat⟩
  unfold removeWaiting at he
  cases hl : alookup g txn with
  | none => rwa [hl] at he
  | some s =>
    rw [hl] at he
    unfold edgeRel nbrs at he ⊢
    rwa [alookup_aupdate_ne _ _ (fun hk => hat hk.symm)] at he

/-! ### Cycles created by a batch of new edges pass through their source -/

theorem transGen_split {r r2 : Nat → Nat → Prop} {t : Nat}
    (hmono : ∀ a b, r a b → r2 a b)
    (hsub : ∀ a b, r2 a b → r a b ∨ a = t) :
    ∀ {c d : Nat}, Relation.TransGen r2 c d →
      Relation.TransGen r c d ∨
        (Relation.ReflTransGen r2 c t ∧ Relation.TransGen r2 t d) := by
  intro c d h
  induction h with
  | single hstep =>
    rcases hsub _ _ hstep with h | rfl
    · exact Or.inl (Relation.TransGen.single h)
    · exact Or.inr ⟨Relation.ReflTransGen.refl, Relation.TransGen.single hstep⟩
  | tail hcd hstep ih =>
    rename_i d e
    rcases hsub _ _ hstep with hde | rfl
    · rcases ih with h | ⟨h1, h2⟩
      · exact Or.inl (Relation.TransGen.tail h hde)
      · exact Or.inr ⟨h1, Relation.TransGen.tail h2 hstep⟩
    · rcases ih with h | ⟨h1, h2⟩
      · refine Or.inr ⟨?_, Relation.TransGen.single hstep⟩
        exact Relation.TransGen.to_reflTransGen (h.mono hmono)
      · exact Or.inr ⟨h1, Relation.TransGen.single hstep⟩

theorem cycle_through_source {g g2 : WFG} {txn : Nat}
    (hacyc : ¬ hasCycle g)
    (hmono : ∀ a b, edgeRel g a b → edgeRel g2 a b)
    (hsub : ∀ a b, edgeRel g2 a b → edgeRel g a b ∨ a = txn)
    (hcyc : hasCycle g2) : Relation.TransGen (edgeRel g2) txn txn := by
  obtain ⟨c, hc⟩ := hcyc
  rcases transGen_split hmono hsub hc with h | ⟨h1, h2⟩
  · exact absurd ⟨c, h⟩ hacyc
  · exact Relation.TransGen.trans_left h2 h1

/-! ### The wait-for graph is acyclic at rest -/

theorem acyclic_mono {g g' : WFG} (hsub : ∀ a b, edgeRel g' a b → edgeRel g a b)
    (h : ¬ hasCycle g) : ¬ hasCycle g' := by
  rintro ⟨c, hc⟩
  exact h ⟨c, hc.mono hsub⟩

theorem acyclic_removeWaiting {g : WFG} {txn : Nat} (h : ¬ hasCycle g) :
    ¬ hasCycle (removeWaiting g txn) :=
  acyclic_mono (fun _ _ he => (edge_removeWaiting he).1) h

theorem acyclic_tryAcquirePass {s : LMState} {txn : Nat} {key : ResourceKey}
    {lt : LockType} {w : Bool} (h : ¬ hasCycle s.wait_for_graph) :
    ¬ hasCycle (acqState (tryAcquirePass s txn key lt w)).wait_for_graph := by
  cases hl : alookup s.locks key with
  | none =>
    simp only [tryAcquirePass, hl, acqState]
    exact acyclic_removeWaiting h
  | some entry =>
    by_cases hg : canGrant entry lt = true
    · simp only [tryAcquirePass, hl, if_pos hg, acqState]
      exact acyclic_removeWaiting h
    · cases hd : detect_deadlock (addEdges s.wait_for_graph txn (conflictingHolders entry txn)) with
      | none =>
        exfalso
        obtain ⟨r, hr⟩ :=
          detect_deadlock_isSome (addEdges s.wait_for_graph txn (conflictingHolders entry txn))
        rw [hd] at hr
        cases hr
      | some o =>
        cases o with
        | none =>
          have hacyc2 := detect_deadlock_none_acyclic hd
          cases w with
          | true => simpa only [tryAcquirePass, hl, if_neg hg, hd, acqState, if_pos] using hacyc2
          | false =>
            simpa only [tryAcquirePass, hl, if_neg hg, hd, acqState, Bool.false_eq_true,
              if_false] using hacyc2
        | some victim =>
          simp only [tryAcquirePass, hl, if_neg hg, hd, acqState]
          refine acyclic_mono ?_ h
          intro a b he
          obtain ⟨he2, hat⟩ := edge_removeWaiting he
          rcases edge_addEdges he2 with he3 | rfl
          · exact he3
          · exact absurd rfl hat

theorem wfg_upgradePass (s : LMState) (txn : Nat) (key : ResourceKey) :
    (match upgradePass s txn key with
      | .success s2 => s2
      | .blocked s2 => s2).wait_for_graph = s.wait_for_graph := by
  cases hl : alookup s.locks key with
  | none => simp only [upgradePass, hl]
  | some entry =>
    by_cases hc : entry.holders.length = 1 ∧ txn ∈ entry.holders
    · simp only [upgradePass, hl, if_pos hc]
    · simp only [upgradePass, hl, if_neg hc]

theorem acyclic_acquire_lock {s : LMState} {txn : Nat} {key : ResourceKey}
    {lt : LockType} (h : ¬ hasCycle s.wait_for_graph) :
    ¬ hasCycle (acqState (acquire_lock s txn key lt)).wait_for_graph := by
  cases hl : alookup s.locks key with
  | none =>
    simp only [acquire_lock, hl]
    exact acyclic_tryAcquirePass h
  | some entry =>
    by_cases hh : txn ∈ entry.holders
    · by_cases hu : entry.lock_type = LockType.SHARED ∧ lt = LockType.EXCLUSIVE
      · simp only [acquire_lock, hl, if_pos hh, if_pos hu]
        have hw := wfg_upgradePass s txn key
        cases hup : upgradePass s txn key with
        | success s2 =>
          rw [hup] at hw
          have hw2 : s2.wait_for_graph = s.wait_for_graph := hw
          simpa only [acqState, hw2] using h
        | blocked s2 =>
          rw [hup] at hw
          have hw2 : s2.wait_for_graph = s.wait_for_graph := hw
          simpa only [acqState, hw2] using h
      · simpa only [acquire_lock, hl, if_pos hh, if_neg hu, acqState] using h
    · simp only [acquire_lock, hl, if_neg hh]
      exact acyclic_tryAcquirePass h

theorem acyclic_upgrade_lock {s : LMState} {txn : Nat} {key : ResourceKey}
    (h : ¬ hasCycle s.wait_for_graph) :
    ¬ hasCycle (upgLockState (upgrade_lock s txn key)).wait_for_graph := by
  cases hl : alookup s.locks key with
  | none => simpa only [upgrade_lock, hl, upgLockState] using h
  | some entry =>
    by_cases hh : txn ∈ entry.holders
    · by_cases hx : entry.lock_type = LockType.EXCLUSIVE
      · simpa only [upgrade_lock, hl, if_pos hh, if_pos hx, upgLockState] using h
      · simp only [upgrade_lock, hl, if_pos hh, if_neg hx]
        have hw := wfg_upgradePass s txn key
        cases hup : upgradePass s txn key with
        | success s2 =>
          rw [hup] at hw
          have hw2 : s2.wait_for_graph = s.wait_for_graph := hw
          simpa only [upgLockState, hw2] using h
        | blocked s2 =>
          rw [hup] at hw
          have hw2 : s2.wait_for_graph = s.wait_for_graph := hw
          simpa only [upgLockState, hw2] using h
    · simpa only [upgrade_lock, hl, if_neg hh, upgLockState] using h

theorem wfg_release_lock (s : LMState) (txn : Nat) (key : ResourceKey) :
    (release_lock s txn key).wait_for_graph = s.wait_for_graph := by
  cases hl : alookup s.locks key with
  | none => simp only [release_lock, hl]
  | some entry =>
    by_cases hh : txn ∈ entry.holders
    · simp only [release_lock, hl, if_pos hh]
      by_cases h0 : (entry.holders.filter (fun x => x ≠ txn)).length = 0
      · by_cases hwq : entry.waiting = []
        · rw [if_pos h0, if_pos hwq]
        · rw [if_pos h0, if_neg hwq]
      · rw [if_neg h0]
    · simp only [release_lock, hl, if_neg hh]

theorem wfg_release_all (s : LMState) (txn : Nat) :
    (release_all_locks s txn).wait_for_graph = s.wait_for_graph := by
  rw [release_all_locks]
  generalize heldKeys s.locks txn = ks
  induction ks generalizing s with
  | nil => rfl
  | cons k ks ih =>
    rw [List.foldl_cons]
    rw [ih, wfg_release_lock]

theorem acyclic_timeoutRemove {s : LMState} {txn : Nat} {key : ResourceKey}
    (h : ¬ hasCycle s.wait_for_graph) :
    ¬ hasCycle (timeoutRemove s txn key).wait_for_graph := by
  cases hl : alookup s.locks key with
  | none => simpa only [timeoutRemove, hl] using h
  | some entry =>
    simp only [timeoutRemove, hl]
    exact acyclic_removeWaiting h

theorem acyclic_step {s s2 : LMState} (h : ¬ hasCycle s.wait_for_graph)
    (hs : LMStep s s2) : ¬ hasCycle s2.wait_for_graph := by
  cases hs with
  | acquire txn key lt => exact acyclic_acquire_lock h
  | retryPass txn key lt => exact acyclic_tryAcquirePass h
  | timeout txn key => exact acyclic_timeoutRemove h
  | upgrade txn key => exact acyclic_upgrade_lock h
  | release txn key => rw [wfg_release_lock]; exact h
  | releaseAll txn => rw [wfg_release_all]; exact h

theorem reachable_acyclic {s : LMState} (h : LMReachable s) :
    ¬ hasCycle s.wait_for_graph := by
  induction h with
  | init =>
    rintro ⟨c, hc⟩
    obtain ⟨b, hcb, _⟩ := (Relation.TransGen.head'_iff).mp hc
    exact absurd hcb (List.not_mem_nil b)
  | step _ hs ih => exact acyclic_step ih hs

/-! ### Analysis of the deadlock-raise path (claim C2 support) -/

theorem reachesCycle_hasCycle {g : WFG} {n : Nat} (h : reachesCycle g n) : hasCycle g := by
  obtain ⟨c, _, hc⟩ := h
  exact ⟨c, hc⟩

theorem tryAcquire_deadlock_analysis {s : LMState} {txn : Nat} {key : ResourceKey}
    {lt : LockType} {w : Bool} {v : Nat} {s2 : LMState}
    (hacyc : ¬ hasCycle s.wait_for_graph)
    (hd : tryAcquirePass s txn key lt w = .deadlock v s2) :
    v = txn ∧ nbrs s2.wait_for_graph txn = [] ∧ s2.locks = s.locks ∧
    ∃ entry, alookup s.locks key = some entry ∧
      Relation.TransGen
        (edgeRel (addEdges s.wait_for_graph txn (conflictingHolders entry txn))) txn txn := by
  cases hl : alookup s.locks key with
  | none => simp [tryAcquirePass, hl] at hd
  | some entry =>
    by_cases hg : canGrant entry lt = true
    · simp [tryAcquirePass, hl, if_pos hg] at hd
    · cases hdet : detect_deadlock (addEdges s.wait_for_graph txn (conflictingHolders entry txn)) with
      | none =>
        exfalso
        obtain ⟨r, hr⟩ :=
          detect_deadlock_isSome (addEdges s.wait_for_graph txn (conflictingHolders entry txn))
        rw [hdet] at hr
        cases hr
      | some o =>
        cases o with
        | none =>
          cases w with
          | true => simp [tryAcquirePass, hl, if_neg hg, hdet] at hd
          | false => simp [tryAcquirePass, hl, if_neg hg, hdet] at hd
        | some victim =>
          simp only [tryAcquirePass, hl, if_neg hg, hdet] at hd
          cases hd
          have hcyc2 : hasCycle
              (addEdges s.wait_for_graph txn (conflictingHolders entry txn)) :=
            reachesCycle_hasCycle (detect_deadlock_some_sound hdet)
          refine ⟨rfl, nbrs_removeWaiting_self _ _, rfl, entry, rfl, ?_⟩
          exact cycle_through_source hacyc (fun a b he => edge_mono_addEdges he)
            (fun a b he => edge_addEdges he) hcyc2

theorem acquire_deadlock_from_tryPass {s : LMState} {txn : Nat} {key : ResourceKey}
    {lt : LockType} {v : Nat} {s2 : LMState}
    (hd : acquire_lock s txn key lt = .deadlock v s2) :
    tryAcquirePass s txn key lt false = .deadlock v s2 := by
  cases hl : alookup s.locks key with
  | none => simpa only [acquire_lock, hl] using hd
  | some entry =>
    by_cases hh : txn ∈ entry.holders
    · exfalso
      by_cases hu : entry.lock_type = LockType.SHARED ∧ lt = LockType.EXCLUSIVE
      · simp only [acquire_lock, hl, if_pos hh, if_pos hu] at hd
        cases hup : upgradePass s txn key with
        | success s3 => rw [hup] at hd; cases hd
        | blocked s3 => rw [hup] at hd; cases hd
      · simp only [acquire_lock, hl, if_pos hh, if_neg hu] at hd
        cases hd
    · simpa only [acquire_lock, hl, if_neg hh] using hd

/-! ### Mode monotonicity: an entry never goes back from EXCLUSIVE to SHARED -/

theorem alookup_isSome_of_mem {α β : Type} [DecidableEq α] {t : List (α × β)} {k : α}
    {v : β} (h : (k, v) ∈ t) : ∃ w, alookup t k = some w := by
  induction t with
  | nil => cases h
  | cons q t ih =>
    obtain ⟨a, b⟩ := q
    rw [alookup]
    by_cases hak : a = k
    · rw [if_pos hak]; exact ⟨b, rfl⟩
    · rw [if_neg hak]
      rcases List.mem_cons.mp h with heq | hm
      · cases heq; exact absurd rfl hak
      · exact ih hm

theorem mode_mono_aupdate {t : LockTable} {key k : ResourceKey} {entry e2new : LockEntry}
    {e e2 : LockEntry}
    (hl : alookup t key = some entry)
    (hmode : entry.lock_type = LockType.EXCLUSIVE → e2new.lock_type = LockType.EXCLUSIVE)
    (h1 : alookup t k = some e) (h2 : alookup (aupdate t key e2new) k = some e2)
    (hx : e.lock_type = LockType.EXCLUSIVE) : e2.lock_type = LockType.EXCLUSIVE := by
  by_cases hk : key = k
  · subst hk
    rw [alookup_aupdate_self] at h2
    cases h2
    rw [hl] at h1
    cases h1
    exact hmode hx
  · rw [alookup_aupdate_ne _ _ hk, h1] at h2
    cases h2
    exact hx

theorem mode_mono_id {t : LockTable} {k : ResourceKey} {e e2 : LockEntry}
    (h1 : alookup t k = some e) (h2 : alookup t k = some e2)
    (hx : e.lock_type = LockType.EXCLUSIVE) : e2.lock_type = LockType.EXCLUSIVE := by
  rw [h1] at h2
  cases h2
  exact hx

theorem tryAcquirePass_mode_mono {s : LMState} {txn : Nat} {key : ResourceKey}
    {lt : LockType} {w : Bool} {k : ResourceKey} {e e2 : LockEntry}
    (h1 : alookup s.locks k = some e)
    (h2 : alookup (acqState (tryAcquirePass s txn key lt w)).locks k = some e2)
    (hx : e.lock_type = LockType.EXCLUSIVE) : e2.lock_type = LockType.EXCLUSIVE := by
  cases hl : alookup s.locks key with
  | none =>
    simp only [tryAcquirePass, hl, acqState] at h2
    by_cases hk : key = k
    · subst hk
      rw [hl] at h1
      cases h1
    · rw [alookup_aupdate_ne _ _ hk, h1] at h2
      cases h2
      exact hx
  | some entry =>
    by_cases hg : canGrant entry lt = true
    · simp only [tryAcquirePass, hl, if_pos hg, acqState] at h2
      refine mode_mono_aupdate hl ?_ h1 h2 hx
      intro hex
      cases lt with
      | SHARED => simpa [grantEntry] using hex
      | EXCLUSIVE => simp [grantEntry]
    · cases hdet : detect_deadlock (addEdges s.wait_for_graph txn (conflictingHolders entry txn)) with
      | none =>
        exfalso
        obtain ⟨r, hr⟩ :=
          detect_deadlock_isSome (addEdges s.wait_for_graph txn (conflictingHolders entry txn))
        rw [hdet] at hr
        cases hr
      | some o =>
        cases o with
        | none =>
          cases w with
          | true =>
            simp only [tryAcquirePass, hl, if_neg hg, hdet, acqState, if_pos] at h2
            exact mode_mono_id h1 h2 hx
          | false =>
            simp only [tryAcquirePass, hl, if_neg hg, hdet, acqState, Bool.false_eq_true,
              if_false] at h2
            refine mode_mono_aupdate hl ?_ h1 h2 hx
            exact fun hex => hex
        | some victim =>
          simp only [tryAcquirePass, hl, if_neg hg, hdet, acqState] at h2
          exact mode_mono_id h1 h2 hx

theorem timeoutRemove_mode_mono {s : LMState} {txn : Nat} {key : ResourceKey}
    {k : ResourceKey} {e e2 : LockEntry}
    (h1 : alookup s.locks k = some e)
    (h2 : alookup (timeoutRemove s txn key).locks k = some e2)
    (hx : e.lock_type = LockType.EXCLUSIVE) : e2.lock_type = LockType.EXCLUSIVE := by
  cases hl : alookup s.locks key with
  | none =>
    simp only [timeoutRemove, hl] at h2
    exact mode_mono_id h1 h2 hx
  | some entry =>
    simp only [timeoutRemove, hl] at h2
    refine mode_mono_aupdate hl ?_ h1 h2 hx
    exact fun hex => hex

theorem upgradePass_mode_mono {s : LMState} {txn : Nat} {key : ResourceKey}
    {k : ResourceKey} {e e2 : LockEntry}
    (h1 : alookup s.locks k = some e)
    (h2 : alookup (match upgradePass s txn key with
      | .success s2 => s2
      | .blocked s2 => s2).locks k = some e2)
    (hx : e.lock_type = LockType.EXCLUSIVE) : e2.lock_type = LockType.EXCLUSIVE := by
  cases hl : alookup s.locks key with
  | none =>
    simp only [upgradePass, hl] at h2
    exact mode_mono_id h1 h2 hx
  | some entry =>
    by_cases hc : entry.holders.length = 1 ∧ txn ∈ entry.holders
    · simp only [upgradePass, hl, if_pos hc] at h2
      exact mode_mono_aupdate hl (fun _ => rfl) h1 h2 hx
    · simp only [upgradePass, hl, if_neg hc] at h2
      exact mode_mono_id h1 h2 hx

theorem acquire_lock_mode_mono {s : LMState} {txn : Nat} {key : ResourceKey}
    {lt : LockType} {k : ResourceKey} {e e2 : LockEntry}
    (h1 : alookup s.locks k = some e)
    (h2 : alookup (acqState (acquire_lock s txn key lt)).locks k = some e2)
    (hx : e.lock_type = LockType.EXCLUSIVE) : e2.lock_type = LockType.EXCLUSIVE := by
  cases hl : alookup s.locks key with
  | none =>
    simp only [acquire_lock, hl] at h2
    exact tryAcquirePass_mode_mono h1 h2 hx
  | some entry =>
    by_cases hh : txn ∈ entry.holders
    · by_cases hu : entry.lock_type = LockType.SHARED ∧ lt = LockType.EXCLUSIVE
      · simp only [acquire_lock, hl, if_pos hh, if_pos hu] at h2
        cases hup : upgradePass s txn key with
        | success s3 =>
          rw [hup] at h2
          have h2b : alookup (match upgradePass s txn key with
              | .success s2 => s2
              | .blocked s2 => s2).locks k = some e2 := by
            rw [hup]
            exact h2
          exact upgradePass_mode_mono h1 h2b hx
        | blocked s3 =>
          rw [hup] at h2
          have h2b : alookup (match upgradePass s txn key with
              | .success s2 => s2
              | .blocked s2 => s2).locks k = some e2 := by
            rw [hup]
            exact h2
          exact upgradePass_mode_mono h1 h2b hx
      · simp only [acquire_lock, hl, if_pos hh, if_neg hu, acqState] at h2
        exact mode_mono_id h1 h2 hx
    · simp only [acquire_lock, hl, if_neg hh] at h2
      exact tryAcquirePass_mode_mono h1 h2 hx

theorem upgrade_lock_mode_mono {s : LMState} {txn : Nat} {key : ResourceKey}
    {k : ResourceKey} {e e2 : LockEntry}
    (h1 : alookup s.locks k = some e)
    (h2 : alookup (upgLockState (upgrade_lock s txn key)).locks k = some e2)
    (hx : e.lock_type = LockType.EXCLUSIVE) : e2.lock_type = LockType.EXCLUSIVE := by
  cases hl : alookup s.locks key with
  | none =>
    simp only [upgrade_lock, hl, upgLockState] at h2
    exact mode_mono_id h1 h2 hx
  | some entry =>
    by_cases hh : txn ∈ entry.holders
    · by_cases hex : entry.lock_type = LockType.EXCLUSIVE
      · simp only [upgrade_lock, hl, if_pos hh, if_pos hex, upgLockState] at h2
        exact mode_mono_id h1 h2 hx
      · simp only [upgrade_lock, hl, if_pos hh, if_neg hex] at h2
        cases hup : upgradePass s txn key with
        | success s3 =>
          rw [hup] at h2
          have h2b : alookup (match upgradePass s txn key with
              | .success s2 => s2
              | .blocked s2 => s2).locks k = some e2 := by
            rw [hup]
            exact h2
          exact upgradePass_mode_mono h1 h2b hx
        | blocked s3 =>
          rw [hup] at h2
          have h2b : alookup (match upgradePass s txn key with
              | .success s2 => s2
              | .blocked s2 => s2).locks k = some e2 := by
            rw [hup]
            exact h2
          exact upgradePass_mode_mono h1 h2b hx
    · simp only [upgrade_lock, hl, if_neg hh, upgLockState] at h2
      exact mode_mono_id h1 h2 hx

theorem release_lock_mode_mono {s : LMState} {txn : Nat} {key : ResourceKey}
    {k : ResourceKey} {e e2 : LockEntry}
    (hnd : (s.locks.map Prod.fst).Nodup)
    (h1 : alookup s.locks k = some e)
    (h2 : alookup (release_lock s txn key).locks k = some e2)
    (hx : e.lock_type = LockType.EXCLUSIVE) : e2.lock_type = LockType.EXCLUSIVE := by
  cases hl : alookup s.locks key with
  | none =>
    simp only [release_lock, hl] at h2
    exact mode_mono_id h1 h2 hx
  | some entry =>
    by_cases hh : txn ∈ entry.holders
    · simp only [release_lock, hl, if_pos hh] at h2
      by_cases h0 : (entry.holders.filter (fun x => x ≠ txn)).length = 0
      · by_cases hwq : entry.waiting = []
        · rw [if_pos h0] at h2
          rw [if_pos hwq] at h2
          by_cases hk : key = k
          · subst hk
            rw [alookup_aerase_self hnd] at h2
            cases h2
          · rw [alookup_aerase_ne _ hk] at h2
            exact mode_mono_id h1 h2 hx
        · rw [if_pos h0, if_neg hwq] at h2
          refine mode_mono_aupdate hl ?_ h1 h2 hx
          exact fun hex => hex
      · rw [if_neg h0] at h2
        refine mode_mono_aupdate hl ?_ h1 h2 hx
        exact fun hex => hex
    · simp only [release_lock, hl, if_neg hh] at h2
      exact mode_mono_id h1 h2 hx

theorem release_lock_back {s : LMState} {txn : Nat} {key k : ResourceKey} {e2 : LockEntry}
    (h2 : alookup (release_lock s txn key).locks k = some e2) :
    ∃ e, alookup s.locks k = some e := by
  cases hl : alookup s.locks key with
  | none =>
    rw [release_lock, hl] at h2
    exact ⟨e2, h2⟩
  | some entry =>
    by_cases hh : txn ∈ entry.holders
    · simp only [release_lock, hl, if_pos hh] at h2
      by_cases h0 : (entry.holders.filter (fun x => x ≠ txn)).length = 0
      · by_cases hwq : entry.waiting = []
        · rw [if_pos h0, if_pos hwq] at h2
          have hm : (k, e2) ∈ s.locks := (aerase_sublist _ _).subset (alookup_mem _ _ _ h2)
          exact alookup_isSome_of_mem hm
        · rw [if_pos h0, if_neg hwq] at h2
          by_cases hk : key = k
          · subst hk; exact ⟨entry, hl⟩
          · rw [alookup_aupdate_ne _ _ hk] at h2
            exact ⟨e2, h2⟩
      · rw [if_neg h0] at h2
        by_cases hk : key = k
        · subst hk; exact ⟨entry, hl⟩
        · rw [alookup_aupdate_ne _ _ hk] at h2
          exact ⟨e2, h2⟩
    · simp only [release_lock, hl, if_neg hh] at h2
      exact ⟨e2, h2⟩

theorem foldl_release_back {txn : Nat} {k : ResourceKey} :
    ∀ (ks : List ResourceKey) (s : LMState) (e2 : LockEntry),
      alookup ((ks.foldl (fun acc kk => release_lock acc txn kk) s).locks) k = some e2 →
      ∃ e, alookup s.locks k = some e := by
  intro ks
  induction ks with
  | nil => exact fun s e2 h => ⟨e2, h⟩
  | cons q ks ih =>
    intro s e2 h
    rw [List.foldl_cons] at h
    obtain ⟨em, hem⟩ := ih (release_lock s txn q) e2 h
    exact release_lock_back hem

theorem foldl_release_mode_mono {txn : Nat} {k : ResourceKey} :
    ∀ (ks : List ResourceKey) (s : LMState) (e e2 : LockEntry),
      goodTable s.locks →
      alookup s.locks k = some e →
      alookup ((ks.foldl (fun acc kk => release_lock acc txn kk) s).locks) k = some e2 →
      e.lock_type = LockType.EXCLUSIVE → e2.lock_type = LockType.EXCLUSIVE := by
  intro ks
  induction ks with
  | nil =>
    intro s e e2 _ h1 h2 hx
    rw [List.foldl_nil] at h2
    exact mode_mono_id h1 h2 hx
  | cons q ks ih =>
    intro s e e2 hg h1 h2 hx
    rw [List.foldl_cons] at h2
    obtain ⟨em, hem⟩ := foldl_release_back ks (release_lock s txn q) e2 h2
    have hm1 : em.lock_type = LockType.EXCLUSIVE :=
      release_lock_mode_mono hg.1 h1 hem hx
    exact ih (release_lock s txn q) em e2 (goodTable_release_lock hg) hem h2 hm1

theorem release_all_mode_mono {s : LMState} {txn : Nat}
    {k : ResourceKey} {e e2 : LockEntry}
    (hg : goodTable s.locks)
    (h1 : alookup s.locks k = some e)
    (h2 : alookup (release_all_locks s txn).locks k = some e2)
    (hx : e.lock_type = LockType.EXCLUSIVE) : e2.lock_type = LockType.EXCLUSIVE := by
  rw [release_all_locks] at h2
  exact foldl_release_mode_mono (heldKeys s.locks txn) s e e2 hg h1 h2 hx

theorem step_mode_mono {s s2 : LMState} (hg : goodTable s.locks) (hs : LMStep s s2)
    {k : ResourceKey} {e e2 : LockEntry}
    (h1 : alookup s.locks k = some e) (h2 : alookup s2.locks k = some e2)
    (hx : e.lock_type = LockType.EXCLUSIVE) : e2.lock_type = LockType.EXCLUSIVE := by
  cases hs with
  | acquire txn key lt => exact acquire_lock_mode_mono h1 h2 hx
  | retryPass txn key lt => exact tryAcquirePass_mode_mono h1 h2 hx
  | timeout txn key => exact timeoutRemove_mode_mono h1 h2 hx
  | upgrade txn key => exact upgrade_lock_mode_mono h1 h2 hx
  | release txn key => exact release_lock_mode_mono hg.1 h1 h2 hx
  | releaseAll txn => exact release_all_mode_mono hg h1 h2 hx

/-! ### Transaction object (`transaction.py`) -/

inductive TransactionType where
  | TRANSFER
  | WITHDRAW
  | DEPOSIT
deriving DecidableEq

inductive OperationType where
  | READ
  | WRITE
deriving DecidableEq

inductive TransactionState where
  | ACTIVE
  | COMMITTED
  | ABORTED
deriving DecidableEq

inductive TransactionPhase where
  | GROWING
  | SHRINKING
deriving DecidableEq

/-- The `args` dict of a transaction: `{from_account, to_account, amount}`
for TRANSFER, `{account_id, amount}` for WITHDRAW and DEPOSIT. -/
inductive TxnArgs where
  | transferArgs (from_account to_account : Nat) (amount : Int)
  | acctArgs (account_id : Nat) (amount : Int)
deriving DecidableEq

structure Operation where
  op_type : OperationType
  account_id : Nat
  value : Int
  node_name : String
deriving DecidableEq

structure LockHeld where
  node_name : String
  account_id : Nat
  lock_type : String
deriving DecidableEq

structure Transaction where
  txn_id : Nat
  state : TransactionState
  phase : TransactionPhase
  txn_type : TransactionType
  args : TxnArgs
  held_locks : List LockHeld
  write_buffer : List Operation
  read_set : List (String × Nat)
  original_values : List (Nat × Int)
deriving DecidableEq

/-- The Python exceptions the transaction paths can raise. -/
inductive PyErr where
  | deadlockExc (txn : Nat)
  | runtimeError (msg : String)
  | valueError (msg : String)
  | keyError (msg : String)
  | attributeError (msg : String)
deriving DecidableEq

/-- A fresh transaction, as `Transaction.__init__` builds it. -/
def Transaction.mk0 (id : Nat) (ty : TransactionType) (args : TxnArgs) : Transaction :=
  ⟨id, TransactionState.ACTIVE, TransactionPhase.GROWING, ty, args, [], [], [], []⟩

/-- The held-locks scan of `Transaction.add_lock`: first matching record is
upgraded S→X in place and the scan stops; otherwise the lock is appended. -/
def addLockList : List LockHeld → String → Nat → String → List LockHeld
  | [], n, a, t => [⟨n, a, t⟩]
  | l :: ls, n, a, t =>
      if l.node_name = n ∧ l.account_id = a then
        (if l.lock_type = "S" ∧ t = "X" then { l with lock_type := "X" } else l) :: ls
      else l :: addLockList ls n a t

/-- `Transaction.add_lock`. -/
def Transaction.add_lock (txn : Transaction) (n : String) (a : Nat) (t : String) :
    Except PyErr Transaction :=
  if txn.state ≠ TransactionState.ACTIVE then
    Except.error (PyErr.runtimeError "Cannot acquire lock: transaction not active")
  else if txn.phase ≠ TransactionPhase.GROWING then
    Except.error (PyErr.runtimeError "Cannot acquire lock: transaction not growing")
  else Except.ok { txn with held_locks := addLockList txn.held_locks n a t }

/-- `Transaction.record_read`. -/
def Transaction.record_read (txn : Transaction) (n : String) (a : Nat) (v : Int) :
    Transaction :=
  { txn with
    read_set := txn.read_set ++ [(n, a)],
    original_values :=
      match alookup txn.original_values a with
      | some _ => txn.original_values
      | none => txn.original_values ++ [(a, v)] }

/-- `Transaction.buffer_write`. -/
def Transaction.buffer_write (txn : Transaction) (n : String) (a : Nat) (v : Int) :
    Except PyErr Transaction :=
  if txn.state ≠ TransactionState.ACTIVE then
    Except.error (PyErr.runtimeError "Cannot write: transaction not active")
  else Except.ok { txn with
    write_buffer := txn.write_buffer ++ [⟨OperationType.WRITE, a, v, n⟩] }

/-- `Transaction.get_original_value`. -/
def Transaction.get_original_value (txn : Transaction) (a : Nat) : Option Int :=
  alookup txn.original_values a

/-- `Transaction.enter_shrinking_phase`. -/
def Transaction.enter_shrinking_phase (txn : Transaction) : Transaction :=
  { txn with phase := TransactionPhase.SHRINKING }

/-- `Transaction.commit`. -/
def Transaction.commitTxn (txn : Transaction) : Except PyErr Transaction :=
  if txn.state ≠ TransactionState.ACTIVE then
    Except.error (PyErr.runtimeError "Cannot commit: transaction not active")
  else Except.ok { txn.enter_shrinking_phase with state := TransactionState.COMMITTED }

/-- `Transaction.abort`. -/
def Transaction.abortTxn (txn : Transaction) : Except PyErr Transaction :=
  if txn.state = TransactionState.COMMITTED then
    Except.error (PyErr.runtimeError "Cannot abort: transaction already committed")
  else Except.ok { txn.enter_shrinking_phase with state := TransactionState.ABORTED }

/-- The call `txn.reset()` made by `TransactionManager.execute_transaction`
and the demo drivers: `transaction.py` defines no `reset` method on
`Transaction`, so by Python attribute lookup the call raises
`AttributeError`. -/
def resetCall (_txn : Transaction) : Except PyErr Transaction :=
  Except.error (PyErr.attributeError "Transaction object has no attribute reset")

/-! ### Storage adapter (`NodeManager` in `query_processor.py`)

The sqlite files are abstracted to the in-memory routing index
(`account_index`) and one balance per account; the claims use only
`get_node_for_account`, `read_balance` and `write_balance`, whose
observable contract this preserves (`UPDATE` of a missing row changes
nothing, negative balances raise `ValueError`, unrouted accounts are
read as absent and written as silent no-ops). -/

structure NodeManager where
  account_index : List (Nat × String)
  balances : List (Nat × Int)
deriving DecidableEq

def NodeManager.get_node_for_account (nm : NodeManager) (a : Nat) : Option String :=
  alookup nm.account_index a

def NodeManager.read_balance (nm : NodeManager) (a : Nat) : Option Int :=
  match alookup nm.account_index a with
  | none => none
  | some _ => alookup nm.balances a

def NodeManager.write_balance (nm : NodeManager) (a : Nat) (b : Int) :
    Except PyErr NodeManager :=
  match alookup nm.account_index a with
  | none => Except.ok nm
  | some _ =>
      if b < 0 then Except.error (PyErr.valueError "Balance cannot be negative")
      else
        let newBalances :=
          match alookup nm.balances a with
          | some _ => aupdate nm.balances a b
          | none => nm.balances
        Except.ok { nm with balances := newBalances }

/-! ### Transaction manager (`transaction_manager.py`)

The interpreter executes one transaction at a time against a lock-manager
state that may already contain other transactions' locks and wait-for
edges.  Exceptions carry the state at raise time, as the caller observes
the mutations made before the raise.  A blocking `acquire_lock` that would
suspend can, with no other thread running, only end in the timeout branch
(remove self from waiters, return `False`); an upgrade wait times out with
no queue to leave. -/

structure ExecState where
  lm : LMState
  nm : NodeManager
  active : List (Nat × Transaction)
deriving DecidableEq

abbrev PyResult (α : Type) :=
  Except (PyErr × ExecState × Transaction) (α × ExecState × Transaction)

/-- Result of a full (blocking) `LockManager.acquire_lock` call. -/
inductive AcquireResult where
  | ok (lm : LMState)
  | timedOut (lm : LMState)
  | deadlockRaised (txn : Nat) (lm : LMState)
deriving DecidableEq

/-- A blocking `acquire_lock` call as the single-transaction interpreter
sees it: the paths of `acquire_lock`, with suspension resolved to timeout. -/
def acquireCall (lm : LMState) (t : Nat) (key : ResourceKey) (lt : LockType) :
    AcquireResult :=
  match acquire_lock lm t key lt with
  | .granted lm2 => AcquireResult.ok lm2
  | .deadlock v lm2 => AcquireResult.deadlockRaised v lm2
  | .suspended lm2 =>
      match alookup lm.locks key with
      | some entry =>
          if t ∈ entry.holders then AcquireResult.timedOut lm2
          else AcquireResult.timedOut (timeoutRemove lm2 t key)
      | none => AcquireResult.timedOut (timeoutRemove lm2 t key)

/-- `TransactionManager.execute_read`. -/
def execute_read (s : ExecState) (txn : Transaction) (account : Nat) :
    PyResult (Option Int) :=
  if txn.state ≠ TransactionState.ACTIVE then
    Except.error (PyErr.runtimeError "Transaction is not active", s, txn)
  else match s.nm.get_node_for_account account with
  | none => Except.ok (none, s, txn)
  | some node =>
      match acquireCall s.lm txn.txn_id (node, account) LockType.SHARED with
      | .timedOut lm2 =>
          Except.error (PyErr.runtimeError "Failed to acquire lock",
            { s with lm := lm2 }, txn)
      | .deadlockRaised v lm2 =>
          Except.error (PyErr.deadlockExc v, { s with lm := lm2 }, txn)
      | .ok lm2 =>
          let s2 := { s with lm := lm2 }
          match txn.add_lock node account "S" with
          | .error e => Except.error (e, s2, txn)
          | .ok txn2 => Except.ok (s.nm.read_balance account, s2, txn2)

/-- `TransactionManager.execute_write`. -/
def execute_write (s : ExecState) (txn : Transaction) (account : Nat) (balance : Int) :
    PyResult Bool :=
  if txn.state ≠ TransactionState.ACTIVE then
    Except.error (PyErr.runtimeError "Transaction is not active", s, txn)
  else if balance < 0 then
    Except.error (PyErr.valueError "Balance cannot be negative", s, txn)
  else match s.nm.get_node_for_account account with
  | none => Except.error (PyErr.runtimeError "Account not found", s, txn)
  | some node =>
      match acquireCall s.lm txn.txn_id (node, account) LockType.EXCLUSIVE with
      | .timedOut lm2 =>
          Except.error (PyErr.runtimeError "Failed to acquire exclusive lock",
            { s with lm := lm2 }, txn)
      | .deadlockRaised v lm2 =>
          Except.error (PyErr.deadlockExc v, { s with lm := lm2 }, txn)
      | .ok lm2 =>
          let s2 := { s with lm := lm2 }
          match txn.add_lock node account "X" with
          | .error e => Except.error (e, s2, txn)
          | .ok txn2 =>
              let txn3 :=
                match txn2.get_original_value account with
                | some _ => txn2
                | none =>
                    match s2.nm.read_balance account with
                    | some current => txn2.record_read node account current
                    | none => txn2
              match txn3.buffer_write node account balance with
              | .error e => Except.error (e, s2, txn3)
              | .ok txn4 => Except.ok (true, s2, txn4)

/-- `TransactionManager._resolve_transfer` (note: no positivity check on
the amount). -/
def resolve_transfer (s : ExecState) (txn : Transaction) : PyResult Unit :=
  match txn.args with
  | .acctArgs _ _ => Except.error (PyErr.keyError "from_account", s, txn)
  | .transferArgs from_acc to_acc amount =>
      match execute_read s txn from_acc with
      | .error r => Except.error r
      | .ok (from_bal?, s1, txn1) =>
          match execute_read s1 txn1 to_acc with
          | .error r => Except.error r
          | .ok (to_bal?, s2, txn2) =>
              match from_bal?, to_bal? with
              | none, _ => Except.error (PyErr.runtimeError "Account not found", s2, txn2)
              | some _, none => Except.error (PyErr.runtimeError "Account not found", s2, txn2)
              | some from_bal, some to_bal =>
                  if from_bal < amount then
                    Except.error (PyErr.runtimeError "Insufficient funds", s2, txn2)
                  else match execute_write s2 txn2 from_acc (from_bal - amount) with
                    | .error r => Except.error r
                    | .ok (_, s3, txn3) =>
                        match execute_write s3 txn3 to_acc (to_bal + amount) with
                        | .error r => Except.error r
                        | .ok (_, s4, txn4) => Except.ok ((), s4, txn4)

/-- `TransactionManager._resolve_withdraw`. -/
def resolve_withdraw (s : ExecState) (txn : Transaction) : PyResult Unit :=
  match txn.args with
  | .transferArgs _ _ _ => Except.error (PyErr.keyError "account_id", s, txn)
  | .acctArgs account amount =>
      match execute_read s txn account with
      | .error r => Except.error r
      | .ok (balance?, s1, txn1) =>
          match balance? with
          | none => Except.error (PyErr.runtimeError "Account not found", s1, txn1)
          | some balance =>
              if balance < amount then
                Except.error (PyErr.runtimeError "Insufficient funds", s1, txn1)
              else match execute_write s1 txn1 account (balance - amount) with
                | .error r => Except.error r
                | .ok (_, s2, txn2) => Except.ok ((), s2, txn2)

/-- `TransactionManager._resolve_deposit`. -/
def resolve_deposit (s : ExecState) (txn : Transaction) : PyResult Unit :=
  match txn.args with
  | .transferArgs _ _ _ => Except.error (PyErr.keyError "account_id", s, txn)
  | .acctArgs account amount =>
      match execute_read s txn account with
      | .error r => Except.error r
      | .ok (balance?, s1, txn1) =>
          match balance? with
          | none => Except.error (PyErr.runtimeError "Account not found", s1, txn1)
          | some balance =>
              match execute_write s1 txn1 account (balance + amount) with
              | .error r => Except.error r
              | .ok (_, s2, txn2) => Except.ok ((), s2, txn2)

/-- `TransactionManager.abort_transaction`. -/
def abort_transaction (s : ExecState) (txn : Transaction) :
    Except (PyErr × ExecState × Transaction) (ExecState × Transaction) :=
  if txn.state = TransactionState.COMMITTED then
    Except.error (PyErr.runtimeError "Cannot abort: transaction already committed", s, txn)
  else match txn.abortTxn with
    | .error e => Except.error (e, s, txn)
    | .ok txn2 =>
        let lm2 := release_all_locks s.lm txn2.txn_id
        Except.ok ({ s with lm := lm2, active := aerase s.active txn2.txn_id }, txn2)

/-- The commit-time flush loop: apply the buffered writes in order,
stopping at the first storage error (earlier writes stay applied). -/
def flushWrites (nm : NodeManager) : List Operation → Except (PyErr × NodeManager) NodeManager
  | [] => Except.ok nm
  | op :: ops =>
      match nm.write_balance op.account_id op.value with
      | .error e => Except.error (e, nm)
      | .ok nm2 => flushWrites nm2 ops

/-- `TransactionManager.commit_transaction`: the pre-check raises; failures
inside the `try` are caught and turn into an abort plus a `False` result. -/
def commit_transaction (s : ExecState) (txn : Transaction) : PyResult Bool :=
  if txn.state ≠ TransactionState.ACTIVE then
    Except.error (PyErr.runtimeError "Transaction is not active", s, txn)
  else match flushWrites s.nm txn.write_buffer with
    | .error (_, nm2) =>
        match abort_transaction { s with nm := nm2 } txn with
        | .error r => Except.error r
        | .ok (s2, txn2) => Except.ok (false, s2, txn2)
    | .ok nm2 =>
        match txn.commitTxn with
        | .error _ =>
            match abort_transaction { s with nm := nm2 } txn with
            | .error r => Except.error r
            | .ok (s2, txn2) => Except.ok (false, s2, txn2)
        | .ok txn2 =>
            let lm2 := release_all_locks s.lm txn2.txn_id
            Except.ok (true,
              { lm := lm2, nm := nm2, active := aerase s.active txn2.txn_id }, txn2)

/-- Dispatch on the high-level transaction type. -/
def resolveStep (s : ExecState) (txn : Transaction) : PyResult Unit :=
  match txn.txn_type with
  | .TRANSFER => resolve_transfer s txn
  | .WITHDRAW => resolve_withdraw s txn
  | .DEPOSIT => resolve_deposit s txn

/-- The retry loop of `TransactionManager.execute_transaction`, with
`attemptsLeft + 1` attempts remaining.  On `DeadlockException` with
retries remaining, the source aborts, sleeps a random backoff and calls
`txn.reset()` — which does not exist, so the `AttributeError` escapes. -/
def executeLoop : Nat → ExecState → Transaction → Except PyErr (Bool × ExecState)
  | 0, s, _ => Except.ok (false, s)
  | attemptsLeft + 1, s, txn =>
      let s1 := { s with active := aupdate s.active txn.txn_id txn }
      match resolveStep s1 txn with
      | .ok (_, s2, txn2) =>
          match commit_transaction s2 txn2 with
          | .ok (b, s3, _) => Except.ok (b, s3)
          | .error (_, s3, txn3) =>
              match abort_transaction s3 txn3 with
              | .error (e2, _, _) => Except.error e2
              | .ok (s4, _) => Except.ok (false, s4)
      | .error (e, s2, txn2) =>
          match e with
          | .deadlockExc _ =>
              match abort_transaction s2 txn2 with
              | .error (e2, _, _) => Except.error e2
              | .ok (s3, txn3) =>
                  if attemptsLeft = 0 then Except.ok (false, s3)
                  else
                    match resetCall txn3 with
                    | .error e2 => Except.error e2
                    | .ok txn4 => executeLoop attemptsLeft s3 txn4
          | _ =>
              match abort_transaction s2 txn2 with
              | .error (e2, _, _) => Except.error e2
              | .ok (s3, _) => Except.ok (false, s3)

/-- `TransactionManager.execute_transaction` (`max_retries = 3`). -/
def execute_transaction (s : ExecState) (txn : Transaction) :
    Except PyErr (Bool × ExecState) :=
  executeLoop 3 { s with active := aupdate s.active txn.txn_id txn } txn

/-- `TransactionManager.transfer` (the granular API method, including its
duplicated write calls); unlike `_resolve_transfer` it validates the
amount before touching any state. -/
def transferMethod (s : ExecState) (txn : Transaction)
    (from_account to_account : Nat) (amount : Int) : PyResult Bool :=
  if amount ≤ 0 then
    Except.error (PyErr.valueError "Transfer amount must be positive", s, txn)
  else
    match execute_read s txn from_account with
    | .error r => Except.error r
    | .ok (from_bal?, s1, txn1) =>
        match execute_read s1 txn1 to_account with
        | .error r => Except.error r
        | .ok (to_bal?, s2, txn2) =>
            match from_bal? with
            | none => Except.error (PyErr.runtimeError "Source account not found", s2, txn2)
            | some from_bal =>
                match to_bal? with
                | none =>
                    Except.error (PyErr.runtimeError "Destination account not found", s2, txn2)
                | some to_bal =>
                    if from_bal < amount then
                      Except.error (PyErr.runtimeError "Insufficient balance", s2, txn2)
                    else match execute_write s2 txn2 from_account (from_bal - amount) with
                      | .error r => Except.error r
                      | .ok (_, s3, txn3) =>
                          match execute_write s3 txn3 to_account (to_bal + amount) with
                          | .error r => Except.error r
                          | .ok (_, s4, txn4) =>
                              match execute_write s4 txn4 from_account (from_bal - amount) with
                              | .error r => Except.error r
                              | .ok (_, s5, txn5) =>
                                  match execute_write s5 txn5 to_account (to_bal + amount) with
                                  | .error r => Except.error r
                                  | .ok (_, s6, txn6) => Except.ok (true, s6, txn6)

/-! ## Claim theorems -/

/-- C3 counterexample: on the graph `1 → 2 → 3 → 2`, `detect_deadlock`
returns node `1`, which participates in no cycle (no edge enters `1`);
the returned node is the root of the DFS that found the cycle, not a
member of the cycle. -/
theorem C3_counterexample :
    detect_deadlock [(1, [2]), (2, [3]), (3, [2])] = some (some 1) ∧
    ¬ Relation.TransGen (edgeRel [(1, [2]), (2, [3]), (3, [2])]) 1 1 := by
  refine ⟨by decide, ?_⟩
  intro h
  obtain ⟨b, _, hb1⟩ := (Relation.TransGen.tail'_iff).mp h
  unfold edgeRel nbrs at hb1
  cases hl : alookup [(1, [2]), (2, [3]), (3, [2])] b with
  | none => rw [hl] at hb1; simp at hb1
  | some l =>
    rw [hl] at hb1
    simp only [Option.getD_some] at hb1
    have hm := alookup_mem _ _ _ hl
    simp only [List.mem_cons, List.not_mem_nil, or_false, Prod.mk.injEq] at hm
    rcases hm with ⟨_, rfl⟩ | ⟨_, rfl⟩ | ⟨_, rfl⟩ <;> simp at hb1

/-- C3 (amended): `detect_deadlock` is total; it returns no node exactly
when the graph is acyclic; when a cycle exists it returns some node, and
any returned node reaches a cycle (it need not lie on one). -/
theorem C3_detect_cycle_spec (g : WFG) :
    detect_deadlock g ≠ none ∧
    (detect_deadlock g = some none → ¬ hasCycle g) ∧
    (hasCycle g → ∃ n, detect_deadlock g = some (some n)) ∧
    (∀ n, detect_deadlock g = some (some n) →
      ∃ c, reach g n c ∧ Relation.TransGen (edgeRel g) c c) := by
  refine ⟨?_, ?_, ?_, ?_⟩
  · obtain ⟨r, hr⟩ := detect_deadlock_isSome g
    rw [hr]
    intro h
    cases h
  · exact detect_deadlock_none_acyclic
  · exact hasCycle_detect_some
  · exact fun n h => detect_deadlock_some_sound h

/-- Witness for C3: on the two-node cycle `2 ⇄ 1` the detector reports a
node, and that node reaches the cycle. -/
theorem C3_detect_cycle_spec_witness :
    hasCycle [(2, [1]), (1, [2])] ∧
    (∃ n, detect_deadlock [(2, [1]), (1, [2])] = some (some n)) ∧
    (∃ c, reach [(2, [1]), (1, [2])] 2 c ∧
      Relation.TransGen (edgeRel [(2, [1]), (1, [2])]) c c) := by
  have h21 : edgeRel [(2, [1]), (1, [2])] 2 1 := by decide
  have h12 : edgeRel [(2, [1]), (1, [2])] 1 2 := by decide
  have hcyc : hasCycle [(2, [1]), (1, [2])] :=
    ⟨2, Relation.TransGen.head h21 (Relation.TransGen.single h12)⟩
  refine ⟨hcyc, (C3_detect_cycle_spec _).2.2.1 hcyc, ?_⟩
  exact (C3_detect_cycle_spec _).2.2.2 2 (by decide)

/-- A reachable lock-manager state: txn 2 holds X on ("N",10), txn 1 holds
X on ("M",11), and txn 2 is suspended waiting for X on ("M",11) (wait-for
edge 2 → 1). -/
def demoWaitState : LMState :=
  ⟨[(("N", 10), ⟨LockType.EXCLUSIVE, [2], []⟩),
    (("M", 11), ⟨LockType.EXCLUSIVE, [1], [(2, LockType.EXCLUSIVE)]⟩)],
   [(2, [1]), (1, [])]⟩

theorem demoWaitState_reachable : LMReachable demoWaitState := by
  have h0 : LMReachable initialLM := LMReachable.init
  have h1 := LMReachable.step h0 (LMStep.acquire 2 ("N", 10) LockType.EXCLUSIVE)
  have h2 := LMReachable.step h1 (LMStep.acquire 1 ("M", 11) LockType.EXCLUSIVE)
  have h3 := LMReachable.step h2 (LMStep.acquire 2 ("M", 11) LockType.EXCLUSIVE)
  exact h3

/-- C2: a `DeadlockException` from `acquire_lock` (first pass or a retry
pass after wake-up) on a reachable state names the requester as the
victim, leaves the requester with no outgoing wait-for edges and the lock
table untouched, and is raised only when the graph checked immediately
before suspension has a cycle through the requester. -/
theorem C2_acquire_lock_deadlock_spec {s : LMState} {txn : Nat} {key : ResourceKey}
    {lt : LockType} {v : Nat} {s2 : LMState} {w : Bool}
    (hr : LMReachable s)
    (hd : acquire_lock s txn key lt = AcqOutcome.deadlock v s2 ∨
          tryAcquirePass s txn key lt w = AcqOutcome.deadlock v s2) :
    v = txn ∧ nbrs s2.wait_for_graph txn = [] ∧ s2.locks = s.locks ∧
    ∃ entry, alookup s.locks key = some entry ∧
      Relation.TransGen
        (edgeRel (addEdges s.wait_for_graph txn (conflictingHolders entry txn))) txn txn := by
  have hacyc := reachable_acyclic hr
  rcases hd with hd | hd
  · exact tryAcquire_deadlock_analysis hacyc (acquire_deadlock_from_tryPass hd)
  · exact tryAcquire_deadlock_analysis hacyc hd

/-- Witness for C2: in `demoWaitState`, txn 1's SHARED request on ("N",10)
(held X by txn 2, which waits for txn 1) raises, naming txn 1, with txn
1's out-edges cleared. -/
theorem C2_acquire_lock_deadlock_spec_witness :
    LMReachable demoWaitState ∧
    acquire_lock demoWaitState 1 ("N", 10) LockType.SHARED =
      AcqOutcome.deadlock 1 demoWaitState ∧
    (1 = 1 ∧ nbrs demoWaitState.wait_for_graph 1 = [] ∧
      demoWaitState.locks = demoWaitState.locks ∧
      ∃ entry, alookup demoWaitState.locks ("N", 10) = some entry ∧
        Relation.TransGen
          (edgeRel (addEdges demoWaitState.wait_for_graph 1 (conflictingHolders entry 1)))
          1 1) := by
  refine ⟨demoWaitState_reachable, by decide, ?_⟩
  exact @C2_acquire_lock_deadlock_spec demoWaitState 1 ("N", 10) LockType.SHARED 1
    demoWaitState false demoWaitState_reachable (Or.inl (by decide))

/-- A reachable state extending `demoWaitState`: txn 1 released ("M",11)
while txn 2 was queued, txn 3 took SHARED on ("P",12), txn 4 queued for
EXCLUSIVE on it, then txn 3 released.  Two entries survive with no
holders. -/
def demoDrainedState : LMState :=
  ⟨[(("N", 10), ⟨LockType.EXCLUSIVE, [2], []⟩),
    (("M", 11), ⟨LockType.EXCLUSIVE, [], [(2, LockType.EXCLUSIVE)]⟩),
    (("P", 12), ⟨LockType.SHARED, [], [(4, LockType.EXCLUSIVE)]⟩)],
   [(2, [1]), (1, []), (4, [3]), (3, [])]⟩

theorem demoDrainedState_reachable : LMReachable demoDrainedState := by
  have h4 := LMReachable.step demoWaitState_reachable (LMStep.release 1 ("M", 11))
  have h5 := LMReachable.step h4 (LMStep.acquire 3 ("P", 12) LockType.SHARED)
  have h6 := LMReachable.step h5 (LMStep.acquire 4 ("P", 12) LockType.EXCLUSIVE)
  have h7 := LMReachable.step h6 (LMStep.release 3 ("P", 12))
  exact h7

/-- C4 counterexample: a reachable lock-table state holds an EXCLUSIVE
entry with zero holders and a SHARED entry with zero holders (both kept
alive by their waiter queues after the last holder released), refuting
"SHARED has at least one holder" and "EXCLUSIVE has exactly one holder". -/
theorem C4_counterexample :
    LMReachable demoDrainedState ∧
    alookup demoDrainedState.locks ("M", 11) =
      some ⟨LockType.EXCLUSIVE, [], [(2, LockType.EXCLUSIVE)]⟩ ∧
    alookup demoDrainedState.locks ("P", 12) =
      some ⟨LockType.SHARED, [], [(4, LockType.EXCLUSIVE)]⟩ :=
  ⟨demoDrainedState_reachable, by decide, by decide⟩

/-- C4 (amended): in every reachable lock-table state an EXCLUSIVE entry
has at most one holder (entries can transiently have zero holders while
waiters remain queued or after a waiter times out), and `release_lock`
removes the entry when it releases the last holder and no waiters
remain. -/
theorem C4_lock_table_invariant {s : LMState} (hr : LMReachable s) :
    (∀ k e, alookup s.locks k = some e → e.lock_type = LockType.EXCLUSIVE →
      e.holders.length ≤ 1) ∧
    (∀ txn k e, alookup s.locks k = some e → e.holders = [txn] → e.waiting = [] →
      alookup (release_lock s txn k).locks k = none) := by
  have hg := reachable_goodTable hr
  constructor
  · intro k e hl hx
    exact goodTable_entry hg hl hx
  · intro txn k e hl hh hw
    have hmem : txn ∈ e.holders := by rw [hh]; exact List.mem_cons_self _ _
    simp [release_lock, hl, hmem, hh, hw, alookup_aerase_self hg.1]

/-- Witness for C4: in `demoWaitState` the EXCLUSIVE entry on ("N",10)
has one holder, and txn 2 releasing it (sole holder, no waiters) removes
the entry. -/
theorem C4_lock_table_invariant_witness :
    LMReachable demoWaitState ∧
    (alookup demoWaitState.locks ("N", 10) = some ⟨LockType.EXCLUSIVE, [2], []⟩) ∧
    (⟨LockType.EXCLUSIVE, [2], []⟩ : LockEntry).lock_type = LockType.EXCLUSIVE ∧
    (⟨LockType.EXCLUSIVE, [2], []⟩ : LockEntry).holders.length ≤ 1 ∧
    alookup (release_lock demoWaitState 2 ("N", 10)).locks ("N", 10) = none := by
  refine ⟨demoWaitState_reachable, by decide, by decide, ?_, ?_⟩
  · exact (C4_lock_table_invariant demoWaitState_reachable).1 ("N", 10) _ (by decide) (by decide)
  · exact (C4_lock_table_invariant demoWaitState_reachable).2 2 ("N", 10)
      ⟨LockType.EXCLUSIVE, [2], []⟩ (by decide) rfl rfl

/-- C9: `release_lock` on a resource with no lock entry, or by a
transaction that is not among the entry's holders, returns with the whole
lock-manager state unchanged. -/
theorem C9_release_lock_frame {s : LMState} {txn : Nat} {key : ResourceKey}
    (h : alookup s.locks key = none ∨
      ∀ e, alookup s.locks key = some e → txn ∉ e.holders) :
    release_lock s txn key = s := by
  cases hl : alookup s.locks key with
  | none => rw [release_lock, hl]
  | some entry =>
    rcases h with h | h
    · rw [hl] at h; cases h
    · simp [release_lock, hl, h entry hl]

/-- Witness for C9: releasing a non-holder (txn 9) and a missing resource
both leave a concrete one-entry table unchanged. -/
theorem C9_release_lock_frame_witness :
    release_lock ⟨[(("A", 1), ⟨LockType.SHARED, [5], []⟩)], []⟩ 9 ("A", 1) =
      ⟨[(("A", 1), ⟨LockType.SHARED, [5], []⟩)], []⟩ ∧
    release_lock ⟨[(("A", 1), ⟨LockType.SHARED, [5], []⟩)], []⟩ 5 ("B", 2) =
      ⟨[(("A", 1), ⟨LockType.SHARED, [5], []⟩)], []⟩ := by
  constructor
  · exact C9_release_lock_frame (Or.inr (fun e he => by cases he; decide))
  · exact C9_release_lock_frame (Or.inl (by decide))

/-- C10: across any single lock-manager transition from a well-formed
table, an entry that persists never changes mode from EXCLUSIVE back to
SHARED; and a SHARED request is granted on an existing entry only when
that entry's mode is already SHARED (hence an EXCLUSIVE entry, holders or
none, never admits a SHARED requester). -/
theorem C10_mode_never_downgrades :
    (∀ s s2 : LMState, goodTable s.locks → LMStep s s2 →
      ∀ k e e2, alookup s.locks k = some e → alookup s2.locks k = some e2 →
        e.lock_type = LockType.EXCLUSIVE → e2.lock_type = LockType.EXCLUSIVE) ∧
    (∀ (s : LMState) (txn : Nat) (key : ResourceKey) (w : Bool) (s2 : LMState)
        (entry : LockEntry), alookup s.locks key = some entry →
      tryAcquirePass s txn key LockType.SHARED w = AcqOutcome.granted s2 →
      entry.lock_type = LockType.SHARED) := by
  constructor
  · intro s s2 hg hs k e e2 h1 h2 hx
    exact step_mode_mono hg hs h1 h2 hx
  · intro s txn key w s2 entry hl hgr
    by_cases hcg : canGrant entry LockType.SHARED = true
    · simpa [canGrant] using hcg
    · exfalso
      cases hdet : detect_deadlock
          (addEdges s.wait_for_graph txn (conflictingHolders entry txn)) with
      | none =>
        obtain ⟨r, hr⟩ := detect_deadlock_isSome
          (addEdges s.wait_for_graph txn (conflictingHolders entry txn))
        rw [hdet] at hr
        cases hr
      | some o =>
        cases o with
        | none =>
          cases w with
          | true => simp [tryAcquirePass, hl, if_neg hcg, hdet] at hgr
          | false => simp [tryAcquirePass, hl, if_neg hcg, hdet] at hgr
        | some victim => simp [tryAcquirePass, hl, if_neg hcg, hdet] at hgr

/-- Witness for C10: txn 1 releasing its EXCLUSIVE lock on ("M",11) in
`demoWaitState` keeps the entry on ("N",10) EXCLUSIVE; and txn 9's SHARED
request granted on a SHARED entry confirms the grant condition. -/
theorem C10_mode_never_downgrades_witness :
    goodTable demoWaitState.locks ∧
    LMStep demoWaitState (release_lock demoWaitState 1 ("M", 11)) ∧
    alookup demoWaitState.locks ("N", 10) =
      some ⟨LockType.EXCLUSIVE, [2], []⟩ ∧
    alookup (release_lock demoWaitState 1 ("M", 11)).locks ("N", 10) =
      some ⟨LockType.EXCLUSIVE, [2], []⟩ ∧
    (⟨LockType.EXCLUSIVE, [2], []⟩ : LockEntry).lock_type = LockType.EXCLUSIVE ∧
    (tryAcquirePass ⟨[(("A", 1), ⟨LockType.SHARED, [5], []⟩)], []⟩ 9 ("A", 1)
      LockType.SHARED false =
      AcqOutcome.granted ⟨[(("A", 1), ⟨LockType.SHARED, [5, 9], []⟩)], []⟩) ∧
    (⟨LockType.SHARED, [5], []⟩ : LockEntry).lock_type = LockType.SHARED := by
  refine ⟨⟨by decide, by decide⟩, LMStep.release 1 ("M", 11), by decide, by decide, by decide,
    by decide, ?_⟩
  exact C10_mode_never_downgrades.2 ⟨[(("A", 1), ⟨LockType.SHARED, [5], []⟩)], []⟩ 9
    ("A", 1) false ⟨[(("A", 1), ⟨LockType.SHARED, [5, 9], []⟩)], []⟩
    ⟨LockType.SHARED, [5], []⟩ (by decide) (by decide)

/-- C8: a transaction already holding the resource with a sufficient mode
gets `acquire_lock` granted with the state untouched; the sole SHARED
holder requesting EXCLUSIVE gets the entry's mode upgraded in place (same
position, holders and waiters unchanged) and the call granted. -/
theorem C8_acquire_lock_reentrant_upgrade :
    (∀ (s : LMState) (txn : Nat) (key : ResourceKey) (lt : LockType)
        (entry : LockEntry), alookup s.locks key = some entry →
      txn ∈ entry.holders →
      ¬(entry.lock_type = LockType.SHARED ∧ lt = LockType.EXCLUSIVE) →
      acquire_lock s txn key lt = AcqOutcome.granted s) ∧
    (∀ (s : LMState) (txn : Nat) (key : ResourceKey) (entry : LockEntry),
      alookup s.locks key = some entry →
      entry.holders = [txn] → entry.lock_type = LockType.SHARED →
      acquire_lock s txn key LockType.EXCLUSIVE = AcqOutcome.granted
        ⟨aupdate s.locks key { entry with lock_type := LockType.EXCLUSIVE },
          s.wait_for_graph⟩) := by
  constructor
  · intro s txn key lt entry hl hh hu
    simp only [acquire_lock, hl]
    rw [if_pos hh, if_neg hu]
  · intro s txn key entry hl hh hs
    have hmem : txn ∈ entry.holders := by rw [hh]; exact List.mem_cons_self _ _
    have hone : entry.holders.length = 1 := by rw [hh]; rfl
    simp only [acquire_lock, hl]
    rw [if_pos hmem, if_pos ⟨hs, by trivial⟩]
    simp only [upgradePass, hl]
    rw [if_pos ⟨hone, hmem⟩]

/-- Witness for C8: in `demoWaitState`, txn 2 re-requesting EXCLUSIVE on
("N",10) succeeds with no change; and txn 5, sole SHARED holder on
("A",1), upgrades in place. -/
theorem C8_acquire_lock_reentrant_upgrade_witness :
    acquire_lock demoWaitState 2 ("N", 10) LockType.EXCLUSIVE =
      AcqOutcome.granted demoWaitState ∧
    acquire_lock ⟨[(("A", 1), ⟨LockType.SHARED, [5], []⟩)], []⟩ 5 ("A", 1)
        LockType.EXCLUSIVE =
      AcqOutcome.granted
        ⟨aupdate [(("A", 1), ⟨LockType.SHARED, [5], []⟩)] ("A", 1)
          ⟨LockType.EXCLUSIVE, [5], []⟩, []⟩ := by
  constructor
  · exact C8_acquire_lock_reentrant_upgrade.1 demoWaitState 2 ("N", 10)
      LockType.EXCLUSIVE ⟨LockType.EXCLUSIVE, [2], []⟩ (by decide) (by decide) (by decide)
  · exact C8_acquire_lock_reentrant_upgrade.2 ⟨[(("A", 1), ⟨LockType.SHARED, [5], []⟩)], []⟩
      5 ("A", 1) ⟨LockType.SHARED, [5], []⟩ (by decide) rfl rfl

/-- A lock-manager environment in which the next request by txn 1 on
("N",10) deadlocks: txn 2 holds X on ("N",10) and waits for txn 1, which
holds X on ("M",11). -/
def deadlockEnvLM : LMState :=
  ⟨[(("M", 11), ⟨LockType.EXCLUSIVE, [1], [(2, LockType.EXCLUSIVE)]⟩),
    (("N", 10), ⟨LockType.EXCLUSIVE, [2], []⟩)],
   [(2, [1]), (1, [])]⟩

def deadlockEnvNM : NodeManager := ⟨[(10, "N"), (11, "M")], [(10, 500), (11, 700)]⟩

def withdrawDeadlockTxn : Transaction :=
  Transaction.mk0 1 TransactionType.WITHDRAW (TxnArgs.acctArgs 10 100)

def transferDeadlockTxn : Transaction :=
  Transaction.mk0 1 TransactionType.TRANSFER (TxnArgs.transferArgs 10 11 100)

/-- C1 (code bug): `execute_transaction` calls `txn.reset()` before every
deadlock-triggered retry, but `transaction.py` defines no `reset` method:
this WITHDRAW deadlocks on its first attempt, is aborted, and the retry
path then raises `AttributeError` instead of resetting and retrying. -/
theorem C1_missing_reset_crashes_retry :
    execute_transaction ⟨deadlockEnvLM, deadlockEnvNM, []⟩ withdrawDeadlockTxn =
      Except.error (PyErr.attributeError "Transaction object has no attribute reset") := rfl

def insufficientState : ExecState := ⟨⟨[], []⟩, ⟨[(3, "Mombasa")], [(3, 8000)]⟩, []⟩

def insufficientTxn : Transaction :=
  Transaction.mk0 1 TransactionType.WITHDRAW (TxnArgs.acctArgs 3 1000000)

/-- C5 (code bug): a non-deadlock failure (insufficient funds) aborts and
returns `False` immediately with every lock released, as claimed; but a
`DeadlockException` does not lead to a retry: after the abort and backoff
the `txn.reset()` call raises `AttributeError`, which escapes the call. -/
theorem C5_retry_loop_behaviour :
    execute_transaction ⟨deadlockEnvLM, deadlockEnvNM, []⟩ transferDeadlockTxn =
      Except.error (PyErr.attributeError "Transaction object has no attribute reset") ∧
    execute_transaction insufficientState insufficientTxn =
      Except.ok (false, insufficientState) :=
  ⟨rfl, rfl⟩

def negativeTransferState : ExecState :=
  ⟨⟨[], []⟩, ⟨[(1, "K"), (2, "N")], [(1, 500), (2, 300)]⟩, []⟩

def negativeTransferTxn : Transaction :=
  Transaction.mk0 7 TransactionType.TRANSFER (TxnArgs.transferArgs 1 2 (-100))

/-- C6 counterexample: a TRANSFER with amount −100 resolved through
`execute_transaction` raises no validation error at all: it commits,
returns `True`, and writes both balances (500→600, 300→200). -/
theorem C6_counterexample :
    (execute_transaction negativeTransferState negativeTransferTxn).map
        (fun p => (p.1, p.2.nm.balances)) =
      Except.ok (true, [(1, 600), (2, 200)]) := rfl

/-- C6 (amended): only the granular `transfer` method validates the
amount: a non-positive amount raises `ValueError` before any lock, read
or write, leaving the state unchanged; the `_resolve_transfer` path used
by `execute_transaction` performs no such check (see the counterexample). -/
theorem C6_transfer_method_validates {s : ExecState} {txn : Transaction}
    {from_account to_account : Nat} {amount : Int} (h : amount ≤ 0) :
    transferMethod s txn from_account to_account amount =
      Except.error (PyErr.valueError "Transfer amount must be positive", s, txn) := by
  rw [transferMethod, if_pos h]

/-- Witness for C6: the transfer method rejects amount 0 on a concrete
state. -/
theorem C6_transfer_method_validates_witness :
    (0 : Int) ≤ 0 ∧
    transferMethod negativeTransferState negativeTransferTxn 1 2 0 =
      Except.error (PyErr.valueError "Transfer amount must be positive",
        negativeTransferState, negativeTransferTxn) :=
  ⟨by decide, C6_transfer_method_validates (by decide)⟩

/-- C7: a WITHDRAW whose amount exceeds the balance makes
`execute_transaction` return `False` with the storage untouched and no
locks held: starting from an idle lock manager, the final state equals
the initial one. -/
theorem C7_withdraw_insufficient_funds {routing : List (Nat × String)}
    {balances : List (Nat × Int)} {account tid : Nat} {node : String}
    {balance amount : Int}
    (hroute : alookup routing account = some node)
    (hbal : alookup balances account = some balance)
    (hlt : balance < amount) :
    execute_transaction ⟨⟨[], []⟩, ⟨routing, balances⟩, []⟩
      (Transaction.mk0 tid TransactionType.WITHDRAW (TxnArgs.acctArgs account amount)) =
    Except.ok (false, ⟨⟨[], []⟩, ⟨routing, balances⟩, []⟩) := by
  simp [execute_transaction, executeLoop, resolveStep, resolve_withdraw, execute_read,
    acquireCall, acquire_lock, tryAcquirePass, alookup, aupdate, aerase, removeWaiting,
    NodeManager.get_node_for_account, NodeManager.read_balance, Transaction.mk0,
    Transaction.add_lock, hroute, hbal, hlt, abort_transaction, Transaction.abortTxn,
    Transaction.enter_shrinking_phase, release_all_locks, heldKeys, release_lock,
    addLockList, canGrant]

/-- Witness for C7: the spec scenario — account 3 with balance 8000 on
Mombasa, WITHDRAW of 1000000. -/
theorem C7_withdraw_insufficient_funds_witness :
    alookup [(3, "Mombasa")] 3 = some "Mombasa" ∧
    alookup [(3, (8000 : Int))] 3 = some 8000 ∧
    (8000 : Int) < 1000000 ∧
    execute_transaction ⟨⟨[], []⟩, ⟨[(3, "Mombasa")], [(3, 8000)]⟩, []⟩
      (Transaction.mk0 9 TransactionType.WITHDRAW (TxnArgs.acctArgs 3 1000000)) =
    Except.ok (false, ⟨⟨[], []⟩, ⟨[(3, "Mombasa")], [(3, 8000)]⟩, []⟩) :=
  ⟨rfl, rfl, by decide, C7_withdraw_insufficient_funds rfl rfl (by decide)⟩

end DDBMS
